import Mathlib

/-!
Verification development for the idp-etechtexas-rag ingestion/RAG service.

The Python services are shallowly embedded: pure functions become Lean
functions over `String`/`List Char`/`Nat`/`Int`/`Rat`; MongoDB collections
become association lists inside explicit state records; external
collaborators (Unicode NFC, the langdetect library, the LangChain text
splitter, Google Drive, Pinecone) are passed in as explicit parameters or
oracle values.  Python floats are idealised as rationals.  Configuration
values read from `settings` are passed as parameters.
-/

/-! ### Python string primitives

`isST` models the character class `[ \t]` used by the regex substitutions in
`OCRService.normalize_text`.  `isPyWS` models the ASCII part of the character
set stripped by Python's `str.strip()` / `str.rstrip()`; the code paths
embedded here only ever strip ASCII whitespace. -/

def isST (c : Char) : Bool := c == ' ' || c == '\t'

def isPyWS (c : Char) : Bool :=
  c == ' ' || c == '\t' || c == '\n' || c == '\r' || c == '\x0b' || c == '\x0c'

/-- Remove trailing characters satisfying `isPyWS` (Python `str.rstrip()`). -/
def rstripList : List Char → List Char
  | [] => []
  | c :: rest =>
    match rstripList rest with
    | [] => if isPyWS c then [] else [c]
    | r => c :: r

/-- Python `str.strip()` on a character list. -/
def pyStripList (l : List Char) : List Char := rstripList (l.dropWhile isPyWS)

/-- Python `str.strip()`. -/
def pyStripStr (s : String) : String := String.mk (pyStripList s.data)

/-- Python `str.rstrip()`. -/
def pyRstripStr (s : String) : String := String.mk (rstripList s.data)

/-! ### Metadata values

Pinecone match metadata is a Python dict whose values (as used by this code)
are strings, numbers or `None`.  Numbers are idealised as rationals. -/

inductive MetaVal where
  | mStr (s : String)
  | mInt (n : Int)
  | mFloat (q : Rat)
  | mNone
  deriving Repr, DecidableEq

/-- Python truthiness of a metadata value (`""`, `0`, `0.0`, `None` are falsy). -/
def MetaVal.truthy : MetaVal → Bool
  | .mStr s => s ≠ ""
  | .mInt n => n ≠ 0
  | .mFloat q => q ≠ 0
  | .mNone => false

/-- Python `str()` rendering of a metadata value, as used in f-strings. -/
def MetaVal.render : MetaVal → String
  | .mStr s => s
  | .mInt n => toString n
  | .mFloat q => toString q
  | .mNone => "None"

/-- `RetrievedChunk` from `app/services/pinecone_service.py`: structured
representation of a Pinecone match.  The metadata dict is an association
list; `score` (a Python float) is idealised as a rational. -/
structure RetrievedChunk where
  id : Option String
  score : Rat
  text : String
  metadata : List (String × MetaVal)
  deriving Repr, DecidableEq

/-- Python `dict.get(key)` on the metadata association list. -/
def mget (m : List (String × MetaVal)) (key : String) : Option MetaVal :=
  (m.find? (fun p => p.1 == key)).map (·.2)

/-! ### `assemble_document_context` (pinecone_service.py lines 291-311)

Joins stripped non-empty chunk texts with a blank line; when `max_chars` is
truthy and exceeded, hard-truncates, strips trailing whitespace, and appends
an ellipsis unless one is already present.  `max_chars : Option Nat` models
the Python `Optional[int]` (`None` and `0` are both falsy). -/

/-- `"\n\n".join(...)` over the stripped non-empty chunk texts. -/
def joinedText (chunks : List RetrievedChunk) : String :=
  String.intercalate "\n\n"
    ((chunks.map (fun c => pyStripStr c.text)).filter (fun t => t ≠ ""))

/-- Append `"…"` unless the string already ends with it. -/
def appendEllipsisUnless (t : String) : String :=
  if t.data.getLast? = some '…' then t else t.push '…'

/-- `combined[:max_chars].rstrip()` followed by appending `"…"` unless the
cut already ends with it. -/
def truncateWithEllipsis (m : Nat) (combined : String) : String :=
  appendEllipsisUnless (pyRstripStr (String.mk (combined.data.take m)))

def assemble_document_context (chunks : List RetrievedChunk) (max_chars : Option Nat) :
    String × Bool :=
  let combined := joinedText chunks
  match max_chars with
  | none => (combined, false)
  | some m =>
    if m = 0 then (combined, false)
    else if combined.length ≤ m then (combined, false)
    else (truncateWithEllipsis m combined, true)

/-! ### `build_qna_context` (pinecone_service.py lines 314-359)

The maximum context/snippet sizes come from `settings.RAG_MAX_CONTEXT_CHARS`
and `settings.RAG_MAX_SNIPPET_CHARS`; they are parameters here.  The loop
index comes from `enumerate(chunks, start=1)` — it advances on every chunk,
including chunks whose stripped text is empty. -/

structure CitationEntry where
  label : Nat
  id : Option String
  score : Rat
  source_file : Option MetaVal
  source_url : Option MetaVal
  page_index : Option MetaVal
  chunk_index : Option MetaVal
  title : Option MetaVal
  court_name : Option MetaVal
  case_number : Option MetaVal
  decision_date : Option MetaVal
  deriving Repr, DecidableEq

/-- Round half-to-even on an idealised float, as Python's builtin `round`. -/
def roundHalfEven (x : Rat) : Int :=
  let f := x.floor
  let r := x - f
  if r < 1/2 then f else if r > 1/2 then f + 1 else if f % 2 = 0 then f else f + 1

/-- Python `round(x, 4)` on an idealised float. -/
def pyRound4 (q : Rat) : Rat := (roundHalfEven (q * 10000) : Rat) / 10000

/-- Rendering of `{source_file or 'unknown_file'}` inside the citation header. -/
def sourceFileLabel (v : Option MetaVal) : String :=
  match v with
  | none => "unknown_file"
  | some m => if m.truthy then m.render else "unknown_file"

/-- The snippet truncation `text[:max_snippet] + "…"` applied when the text
is longer than `max_snippet`. -/
def snippetOf (maxSnippet : Nat) (t : String) : String :=
  if t.length > maxSnippet then String.mk (t.data.take maxSnippet) ++ "…" else t

/-- The labelled block `f"[CIT:{index}] {source}\n{snippet}\n"` for one chunk. -/
def qnaBlock (maxSnippet index : Nat) (c : RetrievedChunk) : String :=
  "[CIT:" ++ toString index ++ "] " ++ sourceFileLabel (mget c.metadata "source_file") ++
    "\n" ++ snippetOf maxSnippet (pyStripStr c.text) ++ "\n"

/-- The citation-map entry appended for one chunk. -/
def qnaEntry (index : Nat) (c : RetrievedChunk) : CitationEntry :=
  { label := index
    id := c.id
    score := pyRound4 c.score
    source_file := mget c.metadata "source_file"
    source_url := mget c.metadata "source_url"
    page_index := mget c.metadata "page_index"
    chunk_index := mget c.metadata "chunk_index"
    title := mget c.metadata "title"
    court_name := mget c.metadata "court_name"
    case_number := mget c.metadata "case_number"
    decision_date := mget c.metadata "decision_date" }

def qnaLoop (maxContext maxSnippet : Nat) :
    Nat → Nat → List RetrievedChunk → List String × List CitationEntry
  | _, _, [] => ([], [])
  | index, used, c :: rest =>
    if pyStripStr c.text = "" then qnaLoop maxContext maxSnippet (index + 1) used rest
    else if used + (qnaBlock maxSnippet index c).length > maxContext then ([], [])
    else
      let next :=
        qnaLoop maxContext maxSnippet (index + 1) (used + (qnaBlock maxSnippet index c).length) rest
      (qnaBlock maxSnippet index c :: next.1, qnaEntry index c :: next.2)

def build_qna_context (maxContext maxSnippet : Nat) (chunks : List RetrievedChunk) :
    String × List CitationEntry :=
  if chunks = [] then ("", [])
  else
    let r := qnaLoop maxContext maxSnippet 1 0 chunks
    (String.intercalate "\n" r.1, r.2)

/-! ### `build_summary_context` (pinecone_service.py lines 362-389)

`max_chars`/`max_snippet` are Python `Optional[int]` with falsy fallback to
the `settings` values (passed here as `ragMaxChars`/`ragMaxSnippet`). -/

def pyOrNat (o : Option Nat) (d : Nat) : Nat :=
  match o with
  | none => d
  | some 0 => d
  | some m => m

def summaryLoop (maxChars maxSnippet : Nat) : Nat → List RetrievedChunk → List String
  | _, [] => []
  | used, c :: rest =>
    let t := pyStripStr c.text
    if t = "" then summaryLoop maxChars maxSnippet used rest
    else
      let snippet := snippetOf maxSnippet t
      if used + snippet.length > maxChars then []
      else snippet :: summaryLoop maxChars maxSnippet (used + snippet.length) rest

def build_summary_context (ragMaxChars ragMaxSnippet : Nat)
    (chunks : List RetrievedChunk) (max_chars max_snippet : Option Nat) : String :=
  if chunks = [] then ""
  else
    String.intercalate "\n---\n"
      (summaryLoop (pyOrNat max_chars ragMaxChars) (pyOrNat max_snippet ragMaxSnippet) 0 chunks)

/-! ### Supporting lemmas for truncation (claim C5). -/

theorem rstripList_length_le (l : List Char) : (rstripList l).length ≤ l.length := by
  induction l with
  | nil => simp [rstripList]
  | cons c rest ih =>
    simp only [rstripList]
    cases h : rstripList rest with
    | nil =>
      by_cases hc : isPyWS c <;> simp [hc]
    | cons d r =>
      rw [h] at ih
      simpa using Nat.succ_le_succ ih

theorem appendEllipsisUnless_getLast (t : String) :
    (appendEllipsisUnless t).data.getLast? = some '…' := by
  unfold appendEllipsisUnless
  split
  · assumption
  · simp [String.push, List.getLast?_concat]

theorem length_push_eq (t : String) (c : Char) : (t.push c).length = t.length + 1 := by
  show (t.data ++ [c]).length = t.data.length + 1
  simp

theorem appendEllipsisUnless_length_le (t : String) :
    (appendEllipsisUnless t).length ≤ t.length + 1 := by
  unfold appendEllipsisUnless
  split
  · exact Nat.le_succ_of_le (Nat.le_refl _)
  · rw [length_push_eq]

theorem truncateWithEllipsis_getLast (m : Nat) (combined : String) :
    (truncateWithEllipsis m combined).data.getLast? = some '…' :=
  appendEllipsisUnless_getLast _

theorem truncateWithEllipsis_length_le (m : Nat) (combined : String) :
    (truncateWithEllipsis m combined).length ≤ m + 1 := by
  have hbase : (pyRstripStr (String.mk (combined.data.take m))).length ≤ m := by
    have h1 := rstripList_length_le (combined.data.take m)
    have h2 : (combined.data.take m).length ≤ m := by
      simp
    calc (pyRstripStr (String.mk (combined.data.take m))).length
        = (rstripList (combined.data.take m)).length := rfl
      _ ≤ (combined.data.take m).length := h1
      _ ≤ m := h2
  have h3 := appendEllipsisUnless_length_le (pyRstripStr (String.mk (combined.data.take m)))
  unfold truncateWithEllipsis
  omega

/-- Claim C5 (amended): on chunks whose joined text is 500 characters,
`assemble_document_context` with `max_chars = 100` reports truncation and
returns a string of at most 101 characters (100 kept characters plus the
appended ellipsis, minus any stripped trailing whitespace) ending in the
ellipsis marker; with `max_chars = 1000` it returns the full joined text
with `truncated = false`. -/
theorem c5_truncation_contract (chunks : List RetrievedChunk)
    (h : (joinedText chunks).length = 500) :
    ((assemble_document_context chunks (some 100)).2 = true ∧
      (assemble_document_context chunks (some 100)).1.data.getLast? = some '…' ∧
      (assemble_document_context chunks (some 100)).1.length ≤ 101) ∧
    assemble_document_context chunks (some 1000) = (joinedText chunks, false) := by
  have h100 : ¬ (joinedText chunks).length ≤ 100 := by omega
  have h1000 : (joinedText chunks).length ≤ 1000 := by omega
  refine ⟨⟨?_, ?_, ?_⟩, ?_⟩ <;>
    simp [assemble_document_context, h100, h1000,
      truncateWithEllipsis_getLast, truncateWithEllipsis_length_le]

/-- Concrete 500-character input used to test claim C5. -/
def chunk500 : RetrievedChunk :=
  { id := none, score := 0, text := String.mk (List.replicate 500 'a'), metadata := [] }

set_option maxRecDepth 10000 in
/-- Claim C5, counterexample: on a single chunk of 500 `'a'` characters,
`assemble_document_context` with `max_chars = 100` returns a string of 101
characters, not exactly 100 as the claim states. -/
theorem c5_counterexample :
    (assemble_document_context [chunk500] (some 100)).1.length = 101 ∧ (101 : Nat) ≠ 100 := by
  constructor
  · decide
  · decide

set_option maxRecDepth 10000 in
/-- Witness instantiating `c5_truncation_contract` at `chunk500`. -/
theorem c5_witness :
    (joinedText [chunk500]).length = 500 ∧
    (((assemble_document_context [chunk500] (some 100)).2 = true ∧
      (assemble_document_context [chunk500] (some 100)).1.data.getLast? = some '…' ∧
      (assemble_document_context [chunk500] (some 100)).1.length ≤ 101) ∧
     assemble_document_context [chunk500] (some 1000) = (joinedText [chunk500], false)) :=
  ⟨by decide, c5_truncation_contract [chunk500] (by decide)⟩

/-! ### Claim C4: citation labels in `build_qna_context`. -/

theorem qnaLoop_spec (maxC maxS : Nat) (chunks : List RetrievedChunk) :
    ∀ index used : Nat,
      (∀ e ∈ (qnaLoop maxC maxS index used chunks).2,
          index ≤ e.label ∧
          ∃ c, chunks.get? (e.label - index) = some c ∧ pyStripStr c.text ≠ "") ∧
      List.Chain' (fun a b => a.label < b.label) (qnaLoop maxC maxS index used chunks).2 := by
  induction chunks with
  | nil =>
    intro index used
    refine ⟨?_, ?_⟩
    · intro e he
      simp [qnaLoop] at he
    · simp [qnaLoop]
  | cons c rest ih =>
    intro index used
    by_cases hc : pyStripStr c.text = ""
    · have hq : qnaLoop maxC maxS index used (c :: rest) =
          qnaLoop maxC maxS (index + 1) used rest := by
        simp [qnaLoop, hc]
      rw [hq]
      obtain ⟨ih1, ih2⟩ := ih (index + 1) used
      refine ⟨?_, ih2⟩
      intro e he
      obtain ⟨hle, d, hd, hne⟩ := ih1 e he
      refine ⟨by omega, d, ?_, hne⟩
      have hstep : e.label - index = (e.label - (index + 1)) + 1 := by omega
      rw [hstep]
      simpa using hd
    · by_cases hb : used + (qnaBlock maxS index c).length > maxC
      · have hq : qnaLoop maxC maxS index used (c :: rest) = ([], []) := by
          simp [qnaLoop, hc, hb]
        rw [hq]
        exact ⟨by intro e he; simp at he, by simp⟩
      · have hq : qnaLoop maxC maxS index used (c :: rest) =
            (qnaBlock maxS index c ::
              (qnaLoop maxC maxS (index + 1) (used + (qnaBlock maxS index c).length) rest).1,
             qnaEntry index c ::
              (qnaLoop maxC maxS (index + 1) (used + (qnaBlock maxS index c).length) rest).2) := by
          simp [qnaLoop, hc, hb]
        rw [hq]
        obtain ⟨ih1, ih2⟩ := ih (index + 1) (used + (qnaBlock maxS index c).length)
        refine ⟨?_, ?_⟩
        · intro e he
          rcases List.mem_cons.mp he with he | he
          · subst he
            exact ⟨Nat.le_refl _, c, by simp [qnaEntry], hc⟩
          · obtain ⟨hle, d, hd, hne⟩ := ih1 e he
            refine ⟨by omega, d, ?_, hne⟩
            have hstep : e.label - index = (e.label - (index + 1)) + 1 := by omega
            rw [hstep]
            simpa using hd
        · rw [List.chain'_cons']
          refine ⟨?_, ih2⟩
          intro y hy
          have hmem : y ∈ (qnaLoop maxC maxS (index + 1)
              (used + (qnaBlock maxS index c).length) rest).2 := by
            exact List.mem_of_mem_head? hy
          have := (ih1 y hmem).1
          simp only [qnaEntry]
          omega

/-- Claim C4 (amended): in `build_qna_context`, a chunk whose stripped text
is empty is skipped (no block, no citation-map entry) but the label counter
still advances past it: each emitted entry carries as its label the 1-based
position of its chunk in the input list, and the recorded labels are
strictly increasing — contiguous `1, 2, 3, …` only when no skipped chunk
precedes an emitted one. -/
theorem c4_citation_labels (maxC maxS : Nat) (chunks : List RetrievedChunk) :
    List.Chain' (fun a b => a.label < b.label) (build_qna_context maxC maxS chunks).2 ∧
    ∀ e ∈ (build_qna_context maxC maxS chunks).2,
      1 ≤ e.label ∧ ∃ c, chunks.get? (e.label - 1) = some c ∧ pyStripStr c.text ≠ "" := by
  by_cases h : chunks = []
  · subst h
    constructor
    · simp [build_qna_context]
    · intro e he
      simp [build_qna_context] at he
  · have hq : (build_qna_context maxC maxS chunks).2 = (qnaLoop maxC maxS 1 0 chunks).2 := by
      simp [build_qna_context, h]
    rw [hq]
    obtain ⟨h1, h2⟩ := qnaLoop_spec maxC maxS chunks 1 0
    exact ⟨h2, h1⟩

/-- A chunk whose text is empty, used to test claim C4. -/
def emptyChunk : RetrievedChunk := { id := none, score := 0, text := "", metadata := [] }

/-- A chunk with non-empty text, used to test claim C4. -/
def fullChunk : RetrievedChunk := { id := none, score := 0, text := "hello", metadata := [] }

/-- Claim C4, counterexample: with an empty-text chunk in first position,
the single emitted citation label is `2`, not the contiguous `1` the claim
requires — the skipped chunk did consume a label. -/
theorem c4_counterexample :
    (build_qna_context 1000 100 [emptyChunk, fullChunk]).2.map CitationEntry.label = [2] ∧
    ([2] : List Nat) ≠ [1] := by
  constructor
  · decide
  · decide

/-- Witness instantiating `c4_citation_labels` on a concrete chunk list and
the concrete entry it emits. -/
theorem c4_witness :
    1 ≤ (qnaEntry 2 fullChunk).label ∧
    ∃ c, [emptyChunk, fullChunk].get? ((qnaEntry 2 fullChunk).label - 1) = some c ∧
      pyStripStr c.text ≠ "" :=
  (c4_citation_labels 1000 100 [emptyChunk, fullChunk]).2 (qnaEntry 2 fullChunk)
    (by
      have h : (build_qna_context 1000 100 [emptyChunk, fullChunk]).2 = [qnaEntry 2 fullChunk] :=
        rfl
      rw [h]
      exact List.mem_singleton.mpr rfl)

/-! ### Claim C8: `_document_sort_key` (chat_nodes.py lines 123-135)

`_safe_int(value)` wraps Python `int(value)`: `None` and unparsable strings
raise and fall back to the default; integers pass through; floats truncate
toward zero; strings parse as optionally signed ASCII decimal literals with
single underscores between digits, surrounded by optional whitespace.
`sorted(...)` on tuples compares lexicographically; Python's stable sort is
modelled by `List.insertionSort`. -/

/-- Python `int(float)`: truncation toward zero. -/
def ratTruncToInt (q : Rat) : Int := if 0 ≤ q then q.floor else q.ceil

def parseDigitsCore : Nat → List Char → Option Nat
  | acc, [] => some acc
  | acc, c :: rest =>
    if c.isDigit then parseDigitsCore (acc * 10 + (c.toNat - 48)) rest
    else if c = '_' then
      match rest with
      | [] => none
      | d :: rest' =>
        if d.isDigit then parseDigitsCore (acc * 10 + (d.toNat - 48)) rest' else none
    else none

/-- Python `int(s)` for a string argument. -/
def pyIntOfString (s : String) : Option Int :=
  match pyStripList s.data with
  | [] => none
  | '+' :: rest =>
    match rest with
    | [] => none
    | d :: _ =>
      if d.isDigit then (parseDigitsCore 0 rest).map (fun n => (n : Int)) else none
  | '-' :: rest =>
    match rest with
    | [] => none
    | d :: _ =>
      if d.isDigit then (parseDigitsCore 0 rest).map (fun n => -(n : Int)) else none
  | d :: rest =>
    if d.isDigit then (parseDigitsCore 0 (d :: rest)).map (fun n => (n : Int)) else none

/-- `_safe_int` from chat_nodes.py: `int(value)` with a default on
`TypeError`/`ValueError`. -/
def _safe_int (v : Option MetaVal) (default : Int) : Int :=
  match v with
  | none => default
  | some .mNone => default
  | some (.mInt n) => n
  | some (.mFloat q) => ratTruncToInt q
  | some (.mStr s) => (pyIntOfString s).getD default

/-- `_document_sort_key` from chat_nodes.py. -/
def _document_sort_key (c : RetrievedChunk) : Int × Int :=
  (_safe_int (mget c.metadata "page_index") 1000000,
   _safe_int (mget c.metadata "chunk_index") 1000000)

/-- Lexicographic `≤` on Python 2-tuples of ints. -/
def lexLe (p q : Int × Int) : Prop := p.1 < q.1 ∨ (p.1 = q.1 ∧ p.2 ≤ q.2)

/-- Lexicographic `<` on Python 2-tuples of ints. -/
def lexLt (p q : Int × Int) : Prop := p.1 < q.1 ∨ (p.1 = q.1 ∧ p.2 < q.2)

/-- Chunk comparison induced by `_document_sort_key`, as used by
`sorted(full_chunks, key=_document_sort_key)`. -/
def chunkKeyLe (a b : RetrievedChunk) : Prop :=
  lexLe (_document_sort_key a) (_document_sort_key b)

instance : DecidableRel lexLe := fun p q => by
  unfold lexLe
  infer_instance

instance : DecidableRel chunkKeyLe := fun a b => by
  unfold chunkKeyLe lexLe
  infer_instance

instance : IsTotal RetrievedChunk chunkKeyLe :=
  ⟨fun a b => by unfold chunkKeyLe lexLe; omega⟩

instance : IsTrans RetrievedChunk chunkKeyLe :=
  ⟨fun a b c hab hbc => by
    unfold chunkKeyLe lexLe at hab hbc ⊢
    omega⟩

/-- `sorted(full_chunks, key=_document_sort_key)` (Python's sort is stable;
`List.insertionSort` is the stable model). -/
def documentSort (chunks : List RetrievedChunk) : List RetrievedChunk :=
  List.insertionSort chunkKeyLe chunks

/-- A metadata value (or its absence) on which Python `int()` raises, i.e.
one that `_safe_int` maps to its default. -/
def nonIntMeta : Option MetaVal → Prop
  | none => True
  | some .mNone => True
  | some (.mStr s) => pyIntOfString s = none
  | some (.mInt _) => False
  | some (.mFloat _) => False

theorem safe_int_of_nonIntMeta (v : Option MetaVal) (d : Int) (h : nonIntMeta v) :
    _safe_int v d = d := by
  cases v with
  | none => rfl
  | some m =>
    cases m with
    | mStr s =>
      simp only [nonIntMeta] at h
      simp [_safe_int, h]
    | mInt n => simp [nonIntMeta] at h
    | mFloat q => simp [nonIntMeta] at h
    | mNone => rfl

/-- Claim C8: the full-document sort key orders chunks ascending by
`(page_index, chunk_index)` lexicographically; a missing or non-integer
`page_index`/`chunk_index` yields the sentinel `1000000` in that component,
so such chunks sort after every chunk with a real (sub-sentinel) index; and
every page-2 chunk (chunk_index 0..3) keys strictly before every page-3
chunk (chunk_index 0..1). -/
theorem c8_document_sort_key :
    (∀ chunks : List RetrievedChunk,
        List.Sorted chunkKeyLe (documentSort chunks) ∧ (documentSort chunks).Perm chunks) ∧
    (∀ c : RetrievedChunk,
        (nonIntMeta (mget c.metadata "page_index") → (_document_sort_key c).1 = 1000000) ∧
        (nonIntMeta (mget c.metadata "chunk_index") → (_document_sort_key c).2 = 1000000)) ∧
    (∀ a b : RetrievedChunk, ∀ p : Int,
        mget a.metadata "page_index" = some (.mInt p) → p < 1000000 →
        nonIntMeta (mget b.metadata "page_index") →
        lexLt (_document_sort_key a) (_document_sort_key b)) ∧
    (∀ a b : RetrievedChunk, ∀ i j : Int,
        mget a.metadata "page_index" = some (.mInt 2) →
        mget a.metadata "chunk_index" = some (.mInt i) → 0 ≤ i → i ≤ 3 →
        mget b.metadata "page_index" = some (.mInt 3) →
        mget b.metadata "chunk_index" = some (.mInt j) → 0 ≤ j → j ≤ 1 →
        lexLt (_document_sort_key a) (_document_sort_key b)) := by
  refine ⟨?_, ?_, ?_, ?_⟩
  · intro chunks
    exact ⟨List.sorted_insertionSort chunkKeyLe chunks,
           List.perm_insertionSort chunkKeyLe chunks⟩
  · intro c
    constructor
    · intro h
      simpa [_document_sort_key] using safe_int_of_nonIntMeta _ 1000000 h
    · intro h
      simpa [_document_sort_key] using safe_int_of_nonIntMeta _ 1000000 h
  · intro a b p ha hp hb
    have hka : (_document_sort_key a).1 = p := by
      simp [_document_sort_key, ha, _safe_int]
    have hkb : (_document_sort_key b).1 = 1000000 := by
      simpa [_document_sort_key] using safe_int_of_nonIntMeta _ 1000000 hb
    unfold lexLt
    omega
  · intro a b i j ha hai hi0 hi3 hb hbj hj0 hj1
    have hka : (_document_sort_key a).1 = 2 := by
      simp [_document_sort_key, ha, _safe_int]
    have hkb : (_document_sort_key b).1 = 3 := by
      simp [_document_sort_key, hb, _safe_int]
    unfold lexLt
    omega

/-- Concrete chunk: page 2, chunk 0. -/
def chkP2C0 : RetrievedChunk :=
  { id := none, score := 0, text := "x",
    metadata := [("page_index", .mInt 2), ("chunk_index", .mInt 0)] }

/-- Concrete chunk: page 3, chunk 1. -/
def chkP3C1 : RetrievedChunk :=
  { id := none, score := 0, text := "y",
    metadata := [("page_index", .mInt 3), ("chunk_index", .mInt 1)] }

/-- Concrete chunk with no metadata (sentinel sort key). -/
def chkNoMeta : RetrievedChunk := { id := none, score := 0, text := "z", metadata := [] }

/-- Witness instantiating `c8_document_sort_key` at concrete chunks. -/
theorem c8_witness :
    lexLt (_document_sort_key chkP2C0) (_document_sort_key chkP3C1) ∧
    lexLt (_document_sort_key chkP2C0) (_document_sort_key chkNoMeta) ∧
    List.Sorted chunkKeyLe (documentSort [chkP3C1, chkNoMeta, chkP2C0]) :=
  ⟨c8_document_sort_key.2.2.2 chkP2C0 chkP3C1 0 1 rfl rfl (by decide) (by decide) rfl rfl
      (by decide) (by decide),
   c8_document_sort_key.2.2.1 chkP2C0 chkNoMeta 2 rfl (by decide) (by exact trivial),
   (c8_document_sort_key.1 [chkP3C1, chkNoMeta, chkP2C0]).1⟩

/-! ### Claim C6: `detect_language` (ocr_service.py lines 239-279)

The `langdetect` library is external: the primary `detect(text)` call and the
ranked `detect_langs(text)` call are oracles.  `detect` is documented to fail
with `LangDetectException`; the embedding keeps a second exception kind to
show which exceptions the code does and does not intercept.  Probabilities
(floats) are idealised as rationals. -/

inductive PyExc where
  | langDetect
  | other
  deriving Repr, DecidableEq

structure LangCandidate where
  lang : String
  prob : Rat
  deriving Repr, DecidableEq

def isLowerAlpha (c : Char) : Bool := 'a' ≤ c && c ≤ 'z'

/-- `re.match(r'^[a-z]{2}$', s)`: two lowercase ASCII letters, with Python's
quirk that `$` also matches just before one trailing newline. -/
def matchTwoLetter (s : String) : Bool :=
  match s.data with
  | [a, b] => isLowerAlpha a && isLowerAlpha b
  | [a, b, c] => isLowerAlpha a && isLowerAlpha b && c == '\n'
  | _ => false

/-- `detect_language` from ocr_service.py.  `primary` is the outcome of
`detect(text)`, `fallback` the outcome of `detect_langs(text)`.  Only
`LangDetectException` from the primary call is caught; the fallback block
catches every exception. -/
def detect_language (text : String) (primary : Except PyExc String)
    (fallback : Except PyExc (List LangCandidate)) : Except PyExc String :=
  if text = "" ∨ pyStripStr text = "" then .ok "und"
  else
    match primary with
    | .ok lang => if matchTwoLetter lang then .ok lang else .ok "und"
    | .error .langDetect =>
      match fallback with
      | .ok [] => .ok "und"
      | .ok (top :: _) =>
        if 3/4 ≤ top.prob ∧ matchTwoLetter top.lang then .ok top.lang else .ok "und"
      | .error _ => .ok "und"
    | .error .other => .error .other

/-- The ranked-candidates acceptance rule as the claim words it: accept the
top candidate only with confidence at least 0.75 and a 2-letter code. -/
def claimedFallback (fallback : Except PyExc (List LangCandidate)) : String :=
  match fallback with
  | .ok (top :: _) => if 3/4 ≤ top.prob ∧ matchTwoLetter top.lang then top.lang else "und"
  | .ok [] => "und"
  | .error _ => "und"

/-- `detect_language` as the claim describes it: fall back to the ranked
detector whenever the primary throws *or returns a non-2-letter code*. -/
def detect_language_claimed (text : String) (primary : Except PyExc String)
    (fallback : Except PyExc (List LangCandidate)) : String :=
  if text = "" ∨ pyStripStr text = "" then "und"
  else
    match primary with
    | .ok lang => if matchTwoLetter lang then lang else claimedFallback fallback
    | .error _ => claimedFallback fallback

/-- Claim C6, counterexample: when the primary detector returns the real
langdetect code `"zh-cn"` (not 2 letters) and the ranked detector would
offer `("zh", 0.99)`, the code returns `"und"` directly; the claimed
algorithm would fall back and return `"zh"`. -/
theorem c6_counterexample :
    detect_language "x" (.ok "zh-cn") (.ok [{ lang := "zh", prob := 0.99 }]) = .ok "und" ∧
    detect_language_claimed "x" (.ok "zh-cn") (.ok [{ lang := "zh", prob := 0.99 }]) = "zh" ∧
    ("und" : String) ≠ "zh" := by
  have hne : ¬ (("x" : String) = "" ∨ pyStripStr "x" = "") := by decide
  have hm : matchTwoLetter "zh-cn" = false := rfl
  refine ⟨?_, ?_, by decide⟩
  · unfold detect_language
    rw [if_neg hne]
    simp [hm]
  · unfold detect_language_claimed
    rw [if_neg hne]
    simp only [hm, Bool.false_eq_true, if_false]
    unfold claimedFallback
    have hacc : (3/4 : Rat) ≤ ({ lang := "zh", prob := 0.99 : LangCandidate }).prob ∧
        matchTwoLetter ({ lang := "zh", prob := 0.99 : LangCandidate }).lang = true := by
      constructor
      · norm_num
      · rfl
    show (if (3/4 : Rat) ≤ ({ lang := "zh", prob := 0.99 : LangCandidate }).prob ∧
          matchTwoLetter ({ lang := "zh", prob := 0.99 : LangCandidate }).lang = true
        then ({ lang := "zh", prob := 0.99 : LangCandidate }).lang else "und") = "zh"
    rw [if_pos hacc]

/-- Claim C6 (amended): `detect_language` never raises as long as the
primary detector fails only with the detection exception (the only failure
langdetect documents); empty or whitespace-only input yields `"und"`; a
primary result that is not a 2-letter code yields `"und"` directly, without
consulting the ranked detector; only when the primary throws the detection
exception is the ranked detector consulted, accepting the top candidate
exactly when its confidence is at least 0.75 and its code is 2 letters. -/
theorem c6_detect_language (text : String) (primary : Except PyExc String)
    (fallback : Except PyExc (List LangCandidate))
    (hp : ∀ e, primary = .error e → e = PyExc.langDetect) :
    (∃ s, detect_language text primary fallback = .ok s) ∧
    ((text = "" ∨ pyStripStr text = "") →
      detect_language text primary fallback = .ok "und") ∧
    (∀ lang, primary = .ok lang → ¬ matchTwoLetter lang →
      ¬ (text = "" ∨ pyStripStr text = "") →
      detect_language text primary fallback = .ok "und") ∧
    (primary = .error .langDetect → ¬ (text = "" ∨ pyStripStr text = "") →
      detect_language text primary fallback = .ok (claimedFallback fallback)) := by
  refine ⟨?_, ?_, ?_, ?_⟩
  · by_cases hempty : text = "" ∨ pyStripStr text = ""
    · exact ⟨"und", by simp [detect_language, hempty]⟩
    · cases hpe : primary with
      | ok lang =>
        by_cases h2 : matchTwoLetter lang
        · exact ⟨lang, by simp [detect_language, hempty, h2]⟩
        · exact ⟨"und", by simp [detect_language, hempty, h2]⟩
      | error e =>
        have he : e = PyExc.langDetect := hp e hpe
        subst he
        cases fallback with
        | ok cands =>
          cases cands with
          | nil => exact ⟨"und", by simp [detect_language, hempty]⟩
          | cons top rest =>
            by_cases hacc : 3/4 ≤ top.prob ∧ matchTwoLetter top.lang
            · exact ⟨top.lang, by simp [detect_language, hempty, hacc]⟩
            · exact ⟨"und", by simp [detect_language, hempty, hacc]⟩
        | error e' => exact ⟨"und", by simp [detect_language, hempty]⟩
  · intro h
    simp [detect_language, h]
  · intro lang hpe h2 hne
    subst hpe
    simp [detect_language, hne, h2]
  · intro hpe hne
    subst hpe
    unfold detect_language
    rw [if_neg hne]
    cases fallback with
    | ok cands =>
      cases cands with
      | nil => rfl
      | cons top rest =>
        by_cases hacc : 3/4 ≤ top.prob ∧ matchTwoLetter top.lang
        · simp [claimedFallback, hacc]
        · simp [claimedFallback, hacc]
    | error e' => rfl

/-- Witness instantiating `c6_detect_language` at a concrete failing primary
and an accepting ranked candidate. -/
theorem c6_witness :
    (∃ s, detect_language "bonjour" (.error .langDetect)
        (.ok [{ lang := "fr", prob := 0.9 }]) = .ok s) ∧
    (("bonjour" : String) = "" ∨ pyStripStr "bonjour" = "" →
      detect_language "bonjour" (.error .langDetect)
        (.ok [{ lang := "fr", prob := 0.9 }]) = .ok "und") ∧
    (∀ lang, (Except.error PyExc.langDetect : Except PyExc String) = .ok lang →
      ¬ matchTwoLetter lang → ¬ (("bonjour" : String) = "" ∨ pyStripStr "bonjour" = "") →
      detect_language "bonjour" (.error .langDetect)
        (.ok [{ lang := "fr", prob := 0.9 }]) = .ok "und") ∧
    ((Except.error PyExc.langDetect : Except PyExc String) = .error .langDetect →
      ¬ (("bonjour" : String) = "" ∨ pyStripStr "bonjour" = "") →
      detect_language "bonjour" (.error .langDetect)
        (.ok [{ lang := "fr", prob := 0.9 }]) =
        .ok (claimedFallback (.ok [{ lang := "fr", prob := 0.9 }]))) :=
  c6_detect_language "bonjour" (.error .langDetect) (.ok [{ lang := "fr", prob := 0.9 }])
    (by
      intro e he
      injection he with h
      exact h.symm)

/-! ### Claims C9 and C10: `chunk_text` and `process_document`
(ocr_service.py lines 281-322 and 324-444)

The LangChain `RecursiveCharacterTextSplitter` is an external library; its
output is passed in as `splits`.  Modelled from the spec: per spec section
4.3 the splitter returns an ordered sequence of non-empty trimmed chunks —
this enters the C9 theorem as the hypothesis on `splits`.  Text extraction
(PyMuPDF / python-docx) is likewise external: `process_document` receives
the extracted full text, page counts, and the per-page text/splitter data
that the multi-page branch would recompute from the PDF. -/

/-- The `enumerate(chunks)` loop of `chunk_text`: the index advances on
every split, stripped-empty splits are dropped. -/
def chunkLoop : Nat → List String → List (Nat × String)
  | _, [] => []
  | idx, s :: rest =>
    if pyStripStr s = "" then chunkLoop (idx + 1) rest
    else (idx, pyStripStr s) :: chunkLoop (idx + 1) rest

/-- `chunk_text` from ocr_service.py: empty/whitespace text yields no
chunks, otherwise the splitter output is enumerated, stripped, and filtered. -/
def chunk_text (text : String) (splits : List String) : List (Nat × String) :=
  if text = "" ∨ pyStripStr text = "" then [] else chunkLoop 0 splits

structure ChunkRec where
  doc_id : String
  file_name : String
  language : String
  total_page_count : Nat
  page_index : Nat
  chunk_index : Nat
  text : String
  deriving Repr, DecidableEq

structure OcrResult where
  doc_id : String
  file_name : String
  language : String
  total_page_count : Nat
  pages_without_text : Nat
  chunks : List ChunkRec
  chunks_emitted : Nat
  lang_undetected : Bool
  deriving Repr, DecidableEq

def mkChunkRec (doc_id file_name language : String) (total pageIdx : Nat)
    (p : Nat × String) : ChunkRec :=
  { doc_id, file_name, language, total_page_count := total, page_index := pageIdx,
    chunk_index := p.1, text := p.2 }

/-- `process_document` from ocr_service.py.  `text`, `total_pages`,
`pages_without_text` are the extraction results; `singleSplits` is the
splitter output on the full text (single-page branch); `pageData` carries,
per PDF page, the normalized page text and the splitter output on it
(multi-page branch). -/
def process_document (doc_id file_name text : String)
    (total_pages pages_without_text : Nat)
    (primary : Except PyExc String) (fallback : Except PyExc (List LangCandidate))
    (singleSplits : List String) (pageData : List (String × List String)) :
    Except PyExc OcrResult :=
  if text = "" ∨ pyStripStr text = "" then
    .ok { doc_id, file_name, language := "und", total_page_count := total_pages,
          pages_without_text, chunks := [], chunks_emitted := 0, lang_undetected := false }
  else
    (detect_language text primary fallback).bind fun language =>
      let all_chunks :=
        if total_pages = 1 then
          (chunk_text text singleSplits).map
            (mkChunkRec doc_id file_name language total_pages 0)
        else
          ((List.range total_pages).zip pageData).flatMap (fun pr =>
            if pyStripStr pr.2.1 = "" then []
            else (chunk_text pr.2.1 pr.2.2).map
              (mkChunkRec doc_id file_name language total_pages pr.1))
      .ok { doc_id, file_name, language, total_page_count := total_pages,
            pages_without_text, chunks := all_chunks,
            chunks_emitted := all_chunks.length, lang_undetected := language == "und" }

theorem chunkLoop_get? (splits : List String) :
    ∀ n : Nat, (∀ s ∈ splits, pyStripStr s ≠ "") →
      ∀ i : Nat, ∀ p : Nat × String,
        (chunkLoop n splits).get? i = some p → p.1 = n + i := by
  induction splits with
  | nil =>
    intro n _ i p hp
    simp [chunkLoop] at hp
  | cons s rest ih =>
    intro n h i p hp
    have hs : pyStripStr s ≠ "" := h s (List.mem_cons_self s rest)
    have hred : chunkLoop n (s :: rest) = (n, pyStripStr s) :: chunkLoop (n + 1) rest := by
      simp [chunkLoop, hs]
    rw [hred] at hp
    cases i with
    | zero =>
      simp only [List.get?_cons_zero, Option.some.injEq] at hp
      rw [← hp]
      rfl
    | succ j =>
      simp only [List.get?_cons_succ] at hp
      have := ih (n + 1) (fun t ht => h t (List.mem_cons_of_mem s ht)) j p hp
      omega

/-- Claim C9: the `chunk_index` values returned by `chunk_text` are 0-based
and contiguous in split order — the i-th returned chunk carries index i —
under the splitter guarantee (spec section 4.3) that splits are non-empty
after trimming. -/
theorem c9_chunk_index_contiguous (text : String) (splits : List String)
    (h : ∀ s ∈ splits, pyStripStr s ≠ "") :
    ∀ i : Nat, ∀ p : Nat × String,
      (chunk_text text splits).get? i = some p → p.1 = i := by
  intro i p hp
  unfold chunk_text at hp
  by_cases hempty : text = "" ∨ pyStripStr text = ""
  · rw [if_pos hempty] at hp
    simp at hp
  · rw [if_neg hempty] at hp
    simpa using chunkLoop_get? splits 0 h i p hp

/-- Witness instantiating `c9_chunk_index_contiguous` on a concrete split
list: the element at position 1 of the output carries chunk_index 1. -/
theorem c9_witness : ((1 : Nat), "beta").1 = 1 :=
  c9_chunk_index_contiguous "alpha beta" ["alpha", "beta"] (by decide) 1 (1, "beta")
    (by decide)

/-- Claim C10: when the extracted text is empty or whitespace-only,
`process_document` returns a zero-chunk result whose `language` is `"und"`
while `lang_undetected` stays `false`, with `total_page_count` and
`pages_without_text` passed through from extraction. -/
theorem c10_empty_document_result (doc_id file_name text : String)
    (total_pages pages_without_text : Nat)
    (primary : Except PyExc String) (fallback : Except PyExc (List LangCandidate))
    (singleSplits : List String) (pageData : List (String × List String))
    (h : text = "" ∨ pyStripStr text = "") :
    process_document doc_id file_name text total_pages pages_without_text
        primary fallback singleSplits pageData =
      .ok { doc_id, file_name, language := "und", total_page_count := total_pages,
            pages_without_text, chunks := [], chunks_emitted := 0,
            lang_undetected := false } := by
  simp [process_document, h]

/-- Witness instantiating `c10_empty_document_result` on a whitespace-only
extraction result. -/
theorem c10_witness :
    process_document "doc:x" "x.pdf" "   " 2 2 (.error .langDetect) (.ok []) [] [] =
      .ok { doc_id := "doc:x", file_name := "x.pdf", language := "und",
            total_page_count := 2, pages_without_text := 2, chunks := [],
            chunks_emitted := 0, lang_undetected := false } :=
  c10_empty_document_result "doc:x" "x.pdf" "   " 2 2 (.error .langDetect) (.ok []) [] []
    (by decide)

/-! ### Claims C3 and C1: the MongoDB ledger
(mongodb_service.py `create_job`, `create_doc`, `is_doc_embedded`;
ingestion_service.py `run_pipeline`)

Collections become association lists from ObjectIds (modelled as `Nat`,
allocated by a counter) to records; `find_one` is the first match in list
order; timestamps are abstract `Nat` instants passed per call.  Records may
lack `created_at` (the code guards `"created_at" not in existing_job`), so
that field is an `Option`. -/

structure JobCounters where
  files_discovered : Nat
  files_processed : Nat
  files_failed : Nat
  pages_processed : Nat
  pages_without_text : Nat
  chunks_emitted : Nat
  lang_undetected_count : Nat
  deriving Repr, DecidableEq

def zeroJobCounters : JobCounters :=
  { files_discovered := 0, files_processed := 0, files_failed := 0, pages_processed := 0,
    pages_without_text := 0, chunks_emitted := 0, lang_undetected_count := 0 }

structure EmbeddingCounters where
  files_embedded : Nat
  embeddings_stored : Nat
  files_embedding_failed : Nat
  deriving Repr, DecidableEq

def zeroEmbeddingCounters : EmbeddingCounters :=
  { files_embedded := 0, embeddings_stored := 0, files_embedding_failed := 0 }

structure JobRecord where
  dataset_name : String
  input_folder_id : String
  output_folder_id : String
  status : String
  counters : JobCounters
  embedding_counters : EmbeddingCounters
  created_at : Option Nat
  updated_at : Nat
  deriving Repr, DecidableEq

structure JobsState where
  jobs : List (Nat × JobRecord)
  next_id : Nat
  deriving Repr, DecidableEq

/-- `find_one({"dataset_name": dataset})` on the `ocr_jobs` collection. -/
def findJobByDataset (st : JobsState) (dataset : String) : Option (Nat × JobRecord) :=
  st.jobs.find? (fun p => p.2.dataset_name == dataset)

/-- `update_one({"_id": id}, ...)` on the `ocr_jobs` collection. -/
def updateJobRecord (jobs : List (Nat × JobRecord)) (id : Nat) (f : JobRecord → JobRecord) :
    List (Nat × JobRecord) :=
  jobs.map (fun p => if p.1 = id then (p.1, f p.2) else p)

/-- Read a job record back by its id. -/
def lookupJob (st : JobsState) (id : Nat) : Option JobRecord :=
  (st.jobs.find? (fun p => p.1 == id)).map (·.2)

/-- Well-formedness maintained by the unique index on `dataset_name` and by
ObjectId allocation: ids are distinct and below the allocation counter. -/
def JobsWF (st : JobsState) : Prop :=
  (st.jobs.map Prod.fst).Nodup ∧ ∀ p ∈ st.jobs, p.1 < st.next_id

/-- The `$set` document applied to an existing job record by `create_job`:
new folder ids, status `"running"`, zeroed counters, `created_at` preserved
when present and backfilled otherwise. -/
def resetJobFields (input output : String) (now : Nat) (r : JobRecord) : JobRecord :=
  { r with
      input_folder_id := input
      output_folder_id := output
      status := "running"
      counters := zeroJobCounters
      embedding_counters := zeroEmbeddingCounters
      updated_at := now
      created_at := if r.created_at = none then some now else r.created_at }

/-- The fresh job document inserted by `create_job`. -/
def newJobRecord (dataset input output : String) (now : Nat) : JobRecord :=
  { dataset_name := dataset, input_folder_id := input, output_folder_id := output,
    status := "running", counters := zeroJobCounters,
    embedding_counters := zeroEmbeddingCounters,
    created_at := some now, updated_at := now }

/-- `create_job` from mongodb_service.py: update-and-reset when a job for
the dataset exists, else insert a fresh zero-counter record. -/
def create_job (st : JobsState) (now : Nat) (dataset input output : String) :
    Nat × JobsState :=
  match findJobByDataset st dataset with
  | some (id, _) =>
    (id, { st with jobs := updateJobRecord st.jobs id (resetJobFields input output now) })
  | none =>
    (st.next_id,
     { jobs := st.jobs ++ [(st.next_id, newJobRecord dataset input output now)],
       next_id := st.next_id + 1 })

theorem find?_append_none {α : Type} (l₁ l₂ : List α) (p : α → Bool)
    (h : l₁.find? p = none) : (l₁ ++ l₂).find? p = l₂.find? p := by
  induction l₁ with
  | nil => simp
  | cons a tl ih =>
    rw [List.find?_cons] at h
    cases hp : p a with
    | true => rw [hp] at h; simp at h
    | false =>
      rw [hp] at h
      simpa [List.find?_cons, hp] using ih h

theorem updateJobRecord_keys (l : List (Nat × JobRecord)) (id : Nat)
    (f : JobRecord → JobRecord) :
    (updateJobRecord l id f).map Prod.fst = l.map Prod.fst := by
  induction l with
  | nil => rfl
  | cons a tl ih =>
    unfold updateJobRecord at ih ⊢
    by_cases h : a.1 = id <;> simp [h, ih]

theorem mem_updateJobRecord_of_mem (l : List (Nat × JobRecord)) (id : Nat)
    (rec : JobRecord) (f : JobRecord → JobRecord) (hmem : (id, rec) ∈ l) :
    (id, f rec) ∈ updateJobRecord l id f := by
  unfold updateJobRecord
  have h := List.mem_map_of_mem (fun p : Nat × JobRecord =>
    if p.1 = id then (p.1, f p.2) else p) hmem
  simpa using h

theorem findKey_of_mem (l : List (Nat × JobRecord)) (id : Nat) (rec : JobRecord)
    (hnd : (l.map Prod.fst).Nodup) (hmem : (id, rec) ∈ l) :
    l.find? (fun p => p.1 == id) = some (id, rec) := by
  induction l with
  | nil => simp at hmem
  | cons hd tl ih =>
    rcases List.mem_cons.mp hmem with h | h
    · rw [← h]
      apply List.find?_cons_of_pos
      simp
    · have hkey : id ∈ tl.map Prod.fst := by
        have := List.mem_map_of_mem Prod.fst h
        simpa using this
      have hne : ¬ hd.1 = id := by
        intro heq
        rw [List.map_cons, List.nodup_cons] at hnd
        exact hnd.1 (heq ▸ hkey)
      rw [List.find?_cons_of_neg]
      · exact ih (by rw [List.map_cons, List.nodup_cons] at hnd; exact hnd.2) h
      · simp [hne]

theorem findJob_update (l : List (Nat × JobRecord)) (d : String) (id : Nat)
    (rec : JobRecord) (f : JobRecord → JobRecord)
    (hnd : (l.map Prod.fst).Nodup)
    (hfind : l.find? (fun p => p.2.dataset_name == d) = some (id, rec))
    (hf : ∀ r, (f r).dataset_name = r.dataset_name) :
    (updateJobRecord l id f).find? (fun p => p.2.dataset_name == d) = some (id, f rec) := by
  induction l with
  | nil => simp at hfind
  | cons hd tl ih =>
    simp only [List.find?_cons] at hfind
    split at hfind
    · rename_i hhd
      have hhd' : hd = (id, rec) := by injection hfind
      subst hhd'
      unfold updateJobRecord
      rw [List.map_cons]
      simp only [ite_true, if_pos]
      apply List.find?_cons_of_pos
      show ((f rec).dataset_name == d) = true
      rw [hf rec]
      simpa using hhd
    · rename_i hhd
      have hmem : (id, rec) ∈ tl := List.mem_of_find?_eq_some hfind
      have hkey : id ∈ tl.map Prod.fst := by
        have := List.mem_map_of_mem Prod.fst hmem
        simpa using this
      have hne : ¬ hd.1 = id := by
        intro heq
        rw [List.map_cons, List.nodup_cons] at hnd
        exact hnd.1 (heq ▸ hkey)
      unfold updateJobRecord
      rw [List.map_cons]
      rw [if_neg hne]
      rw [List.find?_cons_of_neg]
      · exact ih (by rw [List.map_cons, List.nodup_cons] at hnd; exact hnd.2) hfind
      · simpa using hhd

theorem create_job_post (st0 : JobsState) (hwf : JobsWF st0) (now : Nat)
    (d i o : String) :
    JobsWF (create_job st0 now d i o).2 ∧
    ∃ rec : JobRecord,
      findJobByDataset (create_job st0 now d i o).2 d =
        some ((create_job st0 now d i o).1, rec) ∧
      lookupJob (create_job st0 now d i o).2 (create_job st0 now d i o).1 = some rec ∧
      rec.status = "running" ∧ rec.counters = zeroJobCounters ∧
      rec.embedding_counters = zeroEmbeddingCounters ∧
      ∃ t : Nat, rec.created_at = some t := by
  obtain ⟨hnd, hbound⟩ := hwf
  cases hfind : findJobByDataset st0 d with
  | some pr =>
    obtain ⟨id, rec0⟩ := pr
    have hmem0 : (id, rec0) ∈ st0.jobs := List.mem_of_find?_eq_some hfind
    have hres : create_job st0 now d i o =
        (id, { st0 with jobs := updateJobRecord st0.jobs id (resetJobFields i o now) }) := by
      unfold create_job
      rw [hfind]
    rw [hres]
    dsimp only
    constructor
    · constructor
      · rw [updateJobRecord_keys]
        exact hnd
      · intro p hp
        unfold updateJobRecord at hp
        obtain ⟨q, hq, hpq⟩ := List.mem_map.mp hp
        have hq1 : p.1 = q.1 := by
          rw [← hpq]
          split <;> rfl
        rw [hq1]
        exact hbound q hq
    · refine ⟨resetJobFields i o now rec0, ?_, ?_, rfl, rfl, rfl, ?_⟩
      · exact findJob_update st0.jobs d id rec0 _ hnd hfind (fun r => rfl)
      · have hmem1 := mem_updateJobRecord_of_mem st0.jobs id rec0
          (resetJobFields i o now) hmem0
        have hnd1 : ((updateJobRecord st0.jobs id (resetJobFields i o now)).map
            Prod.fst).Nodup := by
          rw [updateJobRecord_keys]
          exact hnd
        unfold lookupJob
        dsimp only
        rw [findKey_of_mem _ id _ hnd1 hmem1]
        rfl
      · cases hca : rec0.created_at with
        | none => exact ⟨now, by simp [resetJobFields, hca]⟩
        | some t => exact ⟨t, by simp [resetJobFields, hca]⟩
  | none =>
    have hres : create_job st0 now d i o =
        (st0.next_id,
         { jobs := st0.jobs ++ [(st0.next_id, newJobRecord d i o now)],
           next_id := st0.next_id + 1 }) := by
      unfold create_job
      rw [hfind]
    rw [hres]
    dsimp only
    have hnotin : st0.next_id ∉ st0.jobs.map Prod.fst := by
      intro hmem
      obtain ⟨p, hp, hpe⟩ := List.mem_map.mp hmem
      have := hbound p hp
      omega
    constructor
    · constructor
      · rw [List.map_append, List.nodup_append]
        refine ⟨hnd, by simp, ?_⟩
        intro a ha hb
        simp at hb
        rw [hb] at ha
        exact hnotin ha
      · intro p hp
        show p.1 < st0.next_id + 1
        rcases List.mem_append.mp hp with h | h
        · have := hbound p h
          omega
        · simp at h
          subst h
          simp
    · refine ⟨newJobRecord d i o now, ?_, ?_, rfl, rfl, rfl, ⟨now, rfl⟩⟩
      · unfold findJobByDataset
        dsimp only
        rw [find?_append_none _ _ _ hfind]
        apply List.find?_cons_of_pos
        simp [newJobRecord]
      · unfold lookupJob
        dsimp only
        have hleft : st0.jobs.find? (fun p => p.1 == st0.next_id) = none := by
          rw [List.find?_eq_none]
          intro p hp
          have hlt := hbound p hp
          simp
          omega
        rw [find?_append_none _ _ _ hleft]
        rw [List.find?_cons_of_pos]
        · rfl
        · simp

/-- Claim C3: calling `create_job` twice with the same `dataset_name`
returns the same job id both times; the second call resets every counter
and embedding counter to zero, sets status to `"running"`, and preserves
the record's `created_at`. -/
theorem c3_create_job_idempotent (st0 : JobsState) (hwf : JobsWF st0)
    (t1 t2 : Nat) (d i1 o1 i2 o2 : String) :
    (create_job (create_job st0 t1 d i1 o1).2 t2 d i2 o2).1 =
      (create_job st0 t1 d i1 o1).1 ∧
    ∃ rec1 rec2 : JobRecord,
      lookupJob (create_job st0 t1 d i1 o1).2 (create_job st0 t1 d i1 o1).1 = some rec1 ∧
      lookupJob (create_job (create_job st0 t1 d i1 o1).2 t2 d i2 o2).2
          (create_job (create_job st0 t1 d i1 o1).2 t2 d i2 o2).1 = some rec2 ∧
      rec2.counters = zeroJobCounters ∧
      rec2.embedding_counters = zeroEmbeddingCounters ∧
      rec2.status = "running" ∧
      rec2.created_at = rec1.created_at := by
  obtain ⟨hwf1, rec1, hfind1, hlook1, hs1, hc1, he1, t, hca1⟩ :=
    create_job_post st0 hwf t1 d i1 o1
  obtain ⟨hnd1, hbound1⟩ := hwf1
  set id1 := (create_job st0 t1 d i1 o1).1 with hid1
  set st1 := (create_job st0 t1 d i1 o1).2 with hst1
  have hmem1 : (id1, rec1) ∈ st1.jobs := List.mem_of_find?_eq_some hfind1
  have hres2 : create_job st1 t2 d i2 o2 =
      (id1, { st1 with jobs := updateJobRecord st1.jobs id1 (resetJobFields i2 o2 t2) }) := by
    unfold create_job
    rw [hfind1]
  rw [hres2]
  dsimp only
  refine ⟨rfl, rec1, resetJobFields i2 o2 t2 rec1, hlook1, ?_, rfl, rfl, rfl, ?_⟩
  · have hmem2 := mem_updateJobRecord_of_mem st1.jobs id1 rec1 (resetJobFields i2 o2 t2) hmem1
    have hnd2 : ((updateJobRecord st1.jobs id1 (resetJobFields i2 o2 t2)).map
        Prod.fst).Nodup := by
      rw [updateJobRecord_keys]
      exact hnd1
    unfold lookupJob
    dsimp only
    rw [findKey_of_mem _ _ _ hnd2 hmem2]
    rfl
  · simp [resetJobFields, hca1]

/-- The empty `ocr_jobs` collection. -/
def emptyJobsState : JobsState := { jobs := [], next_id := 0 }

/-- Witness instantiating `c3_create_job_idempotent` from the empty state. -/
theorem c3_witness :
    (create_job (create_job emptyJobsState 5 "ds" "in1" "out1").2 9 "ds" "in2" "out2").1 =
      (create_job emptyJobsState 5 "ds" "in1" "out1").1 ∧
    ∃ rec1 rec2 : JobRecord,
      lookupJob (create_job emptyJobsState 5 "ds" "in1" "out1").2
          (create_job emptyJobsState 5 "ds" "in1" "out1").1 = some rec1 ∧
      lookupJob
          (create_job (create_job emptyJobsState 5 "ds" "in1" "out1").2 9 "ds" "in2" "out2").2
          (create_job (create_job emptyJobsState 5 "ds" "in1" "out1").2 9 "ds" "in2" "out2").1 =
        some rec2 ∧
      rec2.counters = zeroJobCounters ∧
      rec2.embedding_counters = zeroEmbeddingCounters ∧
      rec2.status = "running" ∧
      rec2.created_at = rec1.created_at :=
  c3_create_job_idempotent emptyJobsState
    (by constructor <;> simp [emptyJobsState]) 5 9 "ds" "in1" "out1" "in2" "out2"

/-! ### Claim C1: the rerun-without-force embedding skip

`create_doc` (mongodb_service.py lines 299-402) and `is_doc_embedded`
(lines 498-516), together with the per-file prologue of `run_pipeline`
(ingestion_service.py lines 345-415): `run_pipeline` first calls
`create_doc` — which resets `embedded` to `False` — and only then consults
`is_doc_embedded` to decide `skip_embedding`. -/

structure DocCounts where
  pages_total : Nat
  pages_without_text : Nat
  chunks_emitted : Nat
  lang_undetected_count : Nat
  deriving Repr, DecidableEq

def zeroDocCounts : DocCounts :=
  { pages_total := 0, pages_without_text := 0, chunks_emitted := 0,
    lang_undetected_count := 0 }

structure DocRecord where
  job_id : Nat
  dataset_name : String
  source_drive_file_id : String
  source_path : String
  source_url : Option String
  output_drive_file_id : Option String
  output_path : Option String
  status : String
  message : String
  counts : DocCounts
  embedded : Bool
  embeddings_count : Option Nat
  pinecone_index : Option String
  embedded_at : Option Nat
  created_at : Option Nat
  updated_at : Nat
  deriving Repr, DecidableEq

structure DocsState where
  docs : List (Nat × DocRecord)
  next_id : Nat
  deriving Repr, DecidableEq

/-- `find_one` by the natural key `(dataset_name, source_drive_file_id)`. -/
def findDocByKey (st : DocsState) (dataset fileId : String) : Option (Nat × DocRecord) :=
  st.docs.find? (fun p =>
    p.2.dataset_name == dataset && p.2.source_drive_file_id == fileId)

def updateDocRecord (docs : List (Nat × DocRecord)) (id : Nat) (f : DocRecord → DocRecord) :
    List (Nat × DocRecord) :=
  docs.map (fun p => if p.1 = id then (p.1, f p.2) else p)

/-- Read a doc record back by its id. -/
def lookupDoc (st : DocsState) (id : Nat) : Option DocRecord :=
  (st.docs.find? (fun p => p.1 == id)).map (·.2)

/-- The `$set` document applied to an existing doc by `create_doc`: rebind
to the new job, reset status to `"queued"`, clear counts, and reset every
embedding field (`embedded := False`); `source_url` only overwritten when
truthy; `created_at` preserved when present. -/
def resetDocFields (job_id : Nat) (path : String) (url : Option String) (now : Nat)
    (r : DocRecord) : DocRecord :=
  let r1 := { r with
      job_id := job_id
      source_path := path
      status := "queued"
      message := ""
      counts := zeroDocCounts
      embedded := false
      embeddings_count := none
      pinecone_index := none
      embedded_at := none
      updated_at := now }
  let r2 := match url with
    | some u => if u ≠ "" then { r1 with source_url := some u } else r1
    | none => r1
  { r2 with created_at := if r.created_at = none then some now else r.created_at }

/-- The fresh doc document inserted by `create_doc`. -/
def newDocRecord (job_id : Nat) (dataset fileId path : String) (url : Option String)
    (now : Nat) : DocRecord :=
  { job_id := job_id, dataset_name := dataset, source_drive_file_id := fileId,
    source_path := path, source_url := url, output_drive_file_id := none,
    output_path := none, status := "queued", message := "", counts := zeroDocCounts,
    embedded := false, embeddings_count := none, pinecone_index := none,
    embedded_at := none, created_at := some now, updated_at := now }

/-- `create_doc` from mongodb_service.py (idempotent by
`(dataset_name, source_drive_file_id)`). -/
def create_doc (st : DocsState) (now : Nat) (job_id : Nat)
    (dataset fileId path : String) (url : Option String) : Nat × DocsState :=
  match findDocByKey st dataset fileId with
  | some (id, _) =>
    (id, { st with docs := updateDocRecord st.docs id (resetDocFields job_id path url now) })
  | none =>
    (st.next_id,
     { docs := st.docs ++ [(st.next_id, newDocRecord job_id dataset fileId path url now)],
       next_id := st.next_id + 1 })

/-- `is_doc_embedded` from mongodb_service.py: `find_one` with filter
`source_drive_file_id`, `dataset_name`, `embedded: True`. -/
def is_doc_embedded (st : DocsState) (fileId dataset : String) : Bool :=
  (st.docs.find? (fun p =>
    p.2.source_drive_file_id == fileId && p.2.dataset_name == dataset &&
      p.2.embedded)).isSome

/-- The per-file prologue of `run_pipeline` (ingestion_service.py lines
354-415): `create_doc` first, then the `skip_embedding` decision (`not
force` and `is_doc_embedded` on the post-`create_doc` state), then the
OCR-JSON existence check deciding whether the artifact is regenerated
(`not existing_json_file_id or force`).  Returns
`(doc_id, skip_embedding, regenerate_json, state)`. -/
def run_pipeline_file_prologue (st : DocsState) (now : Nat) (jobId : Nat)
    (dataset fileId path url : String) (force : Bool) (jsonFileId : Option String) :
    Nat × Bool × Bool × DocsState :=
  let r := create_doc st now jobId dataset fileId path (some url)
  let skip_embedding := !force && is_doc_embedded r.2 fileId dataset
  let existing_json := if force then none else jsonFileId
  let regenerate_json := existing_json.isNone || force
  (r.1, skip_embedding, regenerate_json, r.2)

/-- A doc record already marked embedded, as left by a previous successful
run (`embedded=true`, counts and embedding fields populated). -/
def docEmbedded : DocRecord :=
  { job_id := 1, dataset_name := "ds", source_drive_file_id := "f1",
    source_path := "ds/a.pdf", source_url := some "u", output_drive_file_id := some "j1",
    output_path := some "ds/a.json", status := "ok", message := "",
    counts := { pages_total := 3, pages_without_text := 0, chunks_emitted := 7,
                lang_undetected_count := 0 },
    embedded := true, embeddings_count := some 7, pinecone_index := some "idx",
    embedded_at := some 5, created_at := some 1, updated_at := 6 }

/-- The ledger before the rerun: one doc for `("ds", "f1")`, embedded. -/
def stEmbedded : DocsState := { docs := [(42, docEmbedded)], next_id := 43 }

/-- Claim C1, evaluated at the failing input: on a rerun with `force=false`
over a file whose Doc has `embedded=true`, the prologue computes
`skip_embedding = false` — embedding is *not* skipped, because `create_doc`
has already reset `embedded` to `false` before `is_doc_embedded` runs.  The
OCR-JSON half of the claim does hold: with the artifact missing the
prologue decides to regenerate it. -/
theorem c1_force_false_rerun_reembeds :
    docEmbedded.embedded = true ∧
    (run_pipeline_file_prologue stEmbedded 10 2 "ds" "f1" "ds/a.pdf" "u" false none).2.1
      = false ∧
    (run_pipeline_file_prologue stEmbedded 10 2 "ds" "f1" "ds/a.pdf" "u" false none).2.2.1
      = true ∧
    ((lookupDoc (run_pipeline_file_prologue stEmbedded 10 2 "ds" "f1" "ds/a.pdf" "u"
        false none).2.2.2 42).map DocRecord.embedded) = some false := by
  refine ⟨rfl, by decide, by decide, by decide⟩

/-! ### Claim C2: `summary_generation_agent` context selection
(chat_nodes.py lines 241-385, non-exception path)

Retrieval results are passed as oracle values: `top1` is the
`query_context(top_k=1)` result, `fullFetch` the
`fetch_full_document_chunks` result, `topK` the
`query_context(top_k=RAG_TOP_K)` result the top-K branch would use.
Settings become parameters. -/

/-- Lines 259-343: the `context_text`/`context_chunk_count` pair as computed
by the try-block (full-document branch, then the `if not context_text`
dispatch, whose else-branch — full-document mode on — sets the fixed
marker with zero chunks instead of retrieving top-K). -/
def summary_context_selection (fullDocMode : Bool)
    (summaryMaxChars ragMaxChars ragMaxSnippet : Nat)
    (top1 fullFetch topK : List RetrievedChunk) : String × Nat :=
  let pair :=
    if fullDocMode then
      match top1 with
      | [] => ("", 0)
      | _ :: _ =>
        match fullFetch with
        | [] => ("", 0)
        | _ :: _ =>
          ((assemble_document_context (documentSort fullFetch) (some summaryMaxChars)).1,
           fullFetch.length)
    else ("", 0)
  if pair.1 = "" then
    if fullDocMode = false then
      (build_summary_context ragMaxChars ragMaxSnippet topK none none, topK.length)
    else ("Context unavailable or insufficient.", 0)
  else pair

/-- Lines 353-354: the final `if not context_text` guard before the prompt
is built (the chunk count is left unchanged there). -/
def summary_context_final (fullDocMode : Bool)
    (summaryMaxChars ragMaxChars ragMaxSnippet : Nat)
    (top1 fullFetch topK : List RetrievedChunk) : String × Nat :=
  let p := summary_context_selection fullDocMode summaryMaxChars ragMaxChars ragMaxSnippet
    top1 fullFetch topK
  (if p.1 = "" then "Context unavailable or insufficient." else p.1, p.2)

/-- The behavior the claim describes for full-document mode: when the top-1
query or the full fetch comes back empty, fall through to top-K mode and
build the concise summary context from the top-K chunks. -/
def summary_context_claimed (summaryMaxChars ragMaxChars ragMaxSnippet : Nat)
    (top1 fullFetch topK : List RetrievedChunk) : String × Nat :=
  if top1 = [] ∨ fullFetch = [] then
    (build_summary_context ragMaxChars ragMaxSnippet topK none none, topK.length)
  else
    ((assemble_document_context (documentSort fullFetch) (some summaryMaxChars)).1,
     fullFetch.length)

/-- A chunk with summarizable text, used to test claim C2. -/
def sumChunk : RetrievedChunk :=
  { id := some "v1", score := 0, text := "hello there", metadata := [] }

/-- Claim C2, counterexample: with full-document mode on and an empty top-1
result, the code produces the fixed insufficient-context marker with zero
chunks; the claimed fall-through would have produced the top-K summary
context `"hello there"` with one chunk. -/
theorem c2_counterexample :
    summary_context_final true 1000 1000 100 [] [] [sumChunk] =
      ("Context unavailable or insufficient.", 0) ∧
    summary_context_claimed 1000 1000 100 [] [] [sumChunk] = ("hello there", 1) ∧
    (("Context unavailable or insufficient.", 0) : String × Nat) ≠ ("hello there", 1) := by
  refine ⟨by decide, by decide, by decide⟩

/-- Claim C2 (amended): with full-document mode on, whenever the initial
top-1 query returns no chunks or the full-document fetch returns no chunks,
the workflow does not fall through to top-K retrieval: it substitutes the
fixed marker "Context unavailable or insufficient." with a context chunk
count of zero.  Top-K retrieval with the concise summary context is used
only when full-document mode is off. -/
theorem c2_fullmode_empty_marker (summaryMaxChars ragMaxChars ragMaxSnippet : Nat)
    (top1 fullFetch topK : List RetrievedChunk)
    (h : top1 = [] ∨ fullFetch = []) :
    summary_context_final true summaryMaxChars ragMaxChars ragMaxSnippet
        top1 fullFetch topK =
      ("Context unavailable or insufficient.", 0) := by
  rcases h with h | h
  · subst h
    simp [summary_context_final, summary_context_selection]
  · subst h
    cases top1 with
    | nil => simp [summary_context_final, summary_context_selection]
    | cons c rest => simp [summary_context_final, summary_context_selection]

/-- Witness instantiating `c2_fullmode_empty_marker` at a concrete input
with a non-empty top-1 result and an empty full fetch. -/
theorem c2_witness :
    summary_context_final true 1000 1000 100 [sumChunk] [] [sumChunk] =
      ("Context unavailable or insufficient.", 0) :=
  c2_fullmode_empty_marker 1000 1000 100 [sumChunk] [] [sumChunk] (Or.inr rfl)

/-! ### Claim C7: `normalize_text` (ocr_service.py lines 52-80)

The four regex substitutions are modelled as character scanners with the
exact global leftmost-greedy replacement semantics:
`[ \t]+` → `" "`, then `\n[ \t]+` → `"\n"`, then `[ \t]+\n` → `"\n"`,
then `\n{3,}` → `"\n\n"`, then `str.strip()`.  Unicode NFC
(`unicodedata.normalize('NFC', ...)`) is an external capability passed in
as a function parameter. -/

/-- `regex.sub(r'[ \t]+', ' ', ...)`: each maximal run of spaces/tabs
becomes one space.  The flag records whether the scanner is inside a run
already collapsed. -/
def collapseSTAux (prevST : Bool) : List Char → List Char
  | [] => []
  | c :: rest =>
    if isST c then
      if prevST then collapseSTAux true rest
      else ' ' :: collapseSTAux true rest
    else c :: collapseSTAux false rest

/-- `regex.sub(r'\n[ \t]+', '\n', ...)`: delete each maximal space/tab run
that immediately follows a newline.  The flag records whether the last
emitted character is a newline whose trailing run is being deleted. -/
def rmAfterNLAux (afterNL : Bool) : List Char → List Char
  | [] => []
  | c :: rest =>
    if c = '\n' then '\n' :: rmAfterNLAux true rest
    else if isST c && afterNL then rmAfterNLAux true rest
    else c :: rmAfterNLAux false rest

/-- `regex.sub(r'[ \t]+\n', '\n', ...)`: delete each maximal space/tab run
that immediately precedes a newline.  `pending` holds (reversed) the
space/tab run whose fate is not yet decided. -/
def rmBeforeNLAux (pending : List Char) : List Char → List Char
  | [] => pending.reverse
  | c :: rest =>
    if isST c then rmBeforeNLAux (c :: pending) rest
    else if c = '\n' then '\n' :: rmBeforeNLAux [] rest
    else pending.reverse ++ c :: rmBeforeNLAux [] rest

/-- What a pending newline run collapses to: runs of three or more become
exactly two. -/
def emitNL (run : Nat) : List Char :=
  if 3 ≤ run then ['\n', '\n'] else List.replicate run '\n'

/-- `regex.sub(r'\n{3,}', '\n\n', ...)`: `run` counts the newline run being
scanned. -/
def collapseNLAux (run : Nat) : List Char → List Char
  | [] => emitNL run
  | c :: rest =>
    if c = '\n' then collapseNLAux (run + 1) rest
    else emitNL run ++ c :: collapseNLAux 0 rest

/-- The whitespace pipeline of `normalize_text` after NFC: the four regex
substitutions in source order followed by `str.strip()`. -/
def wsPipeline (l : List Char) : List Char :=
  rstripList
    ((collapseNLAux 0 (rmBeforeNLAux [] (rmAfterNLAux false
      (collapseSTAux false l)))).dropWhile isPyWS)

/-- `normalize_text` from ocr_service.py.  The input is `Option String`
because Python's `if not text` guard accepts `None` as well as `""`; `nfc`
is the external `unicodedata.normalize('NFC', ·)` capability. -/
def normalize_text (nfc : String → String) : Option String → String
  | none => ""
  | some t => if t = "" then "" else String.mk (wsPipeline (nfc t).data)

/-! Invariants characterising the image of the pipeline. -/

/-- No adjacent pair of space/tab characters. -/
def noSS (a b : Char) : Prop := ¬(isST a = true ∧ isST b = true)

/-- No space/tab directly after a newline. -/
def noNLST (a b : Char) : Prop := ¬(a = '\n' ∧ isST b = true)

/-- No space/tab directly before a newline. -/
def noSTNL (a b : Char) : Prop := ¬(isST a = true ∧ b = '\n')

/-- No tab anywhere. -/
def noTab (l : List Char) : Prop := ∀ c ∈ l, c ≠ '\t'

/-- No three consecutive newlines. -/
def noTriple : List Char → Prop
  | a :: b :: c :: rest => ¬(a = '\n' ∧ b = '\n' ∧ c = '\n') ∧ noTriple (b :: c :: rest)
  | _ => True

/-! Stage 1 (`collapseSTAux`): establishment and identity. -/

theorem st_head_true (l : List Char) :
    ∀ c, (collapseSTAux true l).head? = some c → isST c = false := by
  induction l with
  | nil => intro c hc; simp [collapseSTAux] at hc
  | cons a rest ih =>
    intro c hc
    by_cases ha : isST a
    · rw [show collapseSTAux true (a :: rest) = collapseSTAux true rest by
        simp [collapseSTAux, ha]] at hc
      exact ih c hc
    · rw [show collapseSTAux true (a :: rest) = a :: collapseSTAux false rest by
        simp [collapseSTAux, ha]] at hc
      simp at hc
      rw [← hc]
      simpa using ha

theorem st_noTab (l : List Char) : ∀ b, noTab (collapseSTAux b l) := by
  induction l with
  | nil => intro b c hc; simp [collapseSTAux] at hc
  | cons a rest ih =>
    intro b c hc
    by_cases ha : isST a
    · cases b with
      | true =>
        rw [show collapseSTAux true (a :: rest) = collapseSTAux true rest by
          simp [collapseSTAux, ha]] at hc
        exact ih true c hc
      | false =>
        rw [show collapseSTAux false (a :: rest) = ' ' :: collapseSTAux true rest by
          simp [collapseSTAux, ha]] at hc
        rcases List.mem_cons.mp hc with h | h
        · rw [h]; decide
        · exact ih true c h
    · rw [show collapseSTAux b (a :: rest) = a :: collapseSTAux false rest by
        cases b <;> simp [collapseSTAux, ha]] at hc
      rcases List.mem_cons.mp hc with h | h
      · rw [h]
        intro hat
        rw [hat] at ha
        exact ha (by decide)
      · exact ih false c h

theorem st_chain (l : List Char) : ∀ b, List.Chain' noSS (collapseSTAux b l) := by
  induction l with
  | nil => intro b; simp [collapseSTAux]
  | cons a rest ih =>
    intro b
    by_cases ha : isST a
    · cases b with
      | true =>
        rw [show collapseSTAux true (a :: rest) = collapseSTAux true rest by
          simp [collapseSTAux, ha]]
        exact ih true
      | false =>
        rw [show collapseSTAux false (a :: rest) = ' ' :: collapseSTAux true rest by
          simp [collapseSTAux, ha]]
        rw [List.chain'_cons']
        refine ⟨?_, ih true⟩
        intro y hy
        have := st_head_true rest y hy
        unfold noSS
        simp [this]
    · rw [show collapseSTAux b (a :: rest) = a :: collapseSTAux false rest by
        cases b <;> simp [collapseSTAux, ha]]
      rw [List.chain'_cons']
      refine ⟨?_, ih false⟩
      intro y hy
      unfold noSS
      simp [ha]

theorem st_id_aux (l : List Char) (htab : noTab l) (hch : List.Chain' noSS l) :
    collapseSTAux false l = l ∧
    ((∀ c, l.head? = some c → isST c = false) → collapseSTAux true l = l) := by
  induction l with
  | nil => exact ⟨rfl, fun _ => rfl⟩
  | cons a rest ih =>
    obtain ⟨hR, hC⟩ := List.chain'_cons'.mp hch
    have htabr : noTab rest := fun c hc => htab c (List.mem_cons_of_mem a hc)
    obtain ⟨ih1, ih2⟩ := ih htabr hC
    constructor
    · by_cases ha : isST a
      · have ha' : a = ' ' := by
          have := htab a (List.mem_cons_self a rest)
          revert ha this
          unfold isST
          intro ha this
          rcases (by simpa using ha : a = ' ' ∨ a = '\t') with h | h
          · exact h
          · exact absurd h this
        have hhead : ∀ c, rest.head? = some c → isST c = false := by
          intro c hc
          have := hR c hc
          unfold noSS at this
          simp [ha] at this
          simpa using this
        rw [show collapseSTAux false (a :: rest) = ' ' :: collapseSTAux true rest by
          simp [collapseSTAux, ha]]
        rw [ih2 hhead, ha']
      · rw [show collapseSTAux false (a :: rest) = a :: collapseSTAux false rest by
          simp [collapseSTAux, ha]]
        rw [ih1]
    · intro hhead
      have ha : isST a = false := hhead a rfl
      rw [show collapseSTAux true (a :: rest) = a :: collapseSTAux false rest by
        simp [collapseSTAux, ha]]
      rw [ih1]

/-! Stage 2 (`rmAfterNLAux`): establishment, preservation, identity. -/

theorem rm2_head_true (l : List Char) :
    ∀ c, (rmAfterNLAux true l).head? = some c → isST c = false := by
  induction l with
  | nil => intro c hc; simp [rmAfterNLAux] at hc
  | cons a rest ih =>
    intro c hc
    by_cases hnl : a = '\n'
    · rw [show rmAfterNLAux true (a :: rest) = '\n' :: rmAfterNLAux true rest by
        simp [rmAfterNLAux, hnl]] at hc
      simp at hc
      rw [← hc]
      decide
    · by_cases ha : isST a
      · rw [show rmAfterNLAux true (a :: rest) = rmAfterNLAux true rest by
          simp [rmAfterNLAux, hnl, ha]] at hc
        exact ih c hc
      · rw [show rmAfterNLAux true (a :: rest) = a :: rmAfterNLAux false rest by
          simp [rmAfterNLAux, hnl, ha]] at hc
        simp at hc
        rw [← hc]
        simpa using ha

theorem rm2_head_false (l : List Char) : (rmAfterNLAux false l).head? = l.head? := by
  cases l with
  | nil => rfl
  | cons a rest =>
    by_cases hnl : a = '\n'
    · simp [rmAfterNLAux, hnl]
    · simp [rmAfterNLAux, hnl]

theorem rm2_noTab (l : List Char) (h : noTab l) : ∀ b, noTab (rmAfterNLAux b l) := by
  induction l with
  | nil => intro b c hc; simp [rmAfterNLAux] at hc
  | cons a rest ih =>
    have hr : noTab rest := fun c hc => h c (List.mem_cons_of_mem a hc)
    intro b c hc
    by_cases hnl : a = '\n'
    · rw [show rmAfterNLAux b (a :: rest) = '\n' :: rmAfterNLAux true rest by
        simp [rmAfterNLAux, hnl]] at hc
      rcases List.mem_cons.mp hc with hh | hh
      · rw [hh]; decide
      · exact ih hr true c hh
    · by_cases hd : isST a && b
      · rw [show rmAfterNLAux b (a :: rest) = rmAfterNLAux true rest by
          simp only [rmAfterNLAux, if_neg hnl]
          rw [if_pos hd]] at hc
        exact ih hr true c hc
      · rw [show rmAfterNLAux b (a :: rest) = a :: rmAfterNLAux false rest by
          simp only [rmAfterNLAux, if_neg hnl]
          rw [if_neg]
          simpa using hd] at hc
        rcases List.mem_cons.mp hc with hh | hh
        · rw [hh]
          exact h a (List.mem_cons_self a rest)
        · exact ih hr false c hh

theorem rm2_B (l : List Char) : ∀ b, List.Chain' noNLST (rmAfterNLAux b l) := by
  induction l with
  | nil => intro b; simp [rmAfterNLAux]
  | cons a rest ih =>
    intro b
    by_cases hnl : a = '\n'
    · rw [show rmAfterNLAux b (a :: rest) = '\n' :: rmAfterNLAux true rest by
        simp [rmAfterNLAux, hnl]]
      rw [List.chain'_cons']
      refine ⟨?_, ih true⟩
      intro y hy
      have := rm2_head_true rest y hy
      unfold noNLST
      simp [this]
    · by_cases hd : isST a && b
      · rw [show rmAfterNLAux b (a :: rest) = rmAfterNLAux true rest by
          simp only [rmAfterNLAux, if_neg hnl]
          rw [if_pos hd]]
        exact ih true
      · rw [show rmAfterNLAux b (a :: rest) = a :: rmAfterNLAux false rest by
          simp only [rmAfterNLAux, if_neg hnl]
          rw [if_neg]
          simpa using hd]
        rw [List.chain'_cons']
        refine ⟨?_, ih false⟩
        intro y hy
        unfold noNLST
        simp [hnl]

theorem rm2_preserve (R : Char → Char → Prop) (hR : ∀ x, R '\n' x) (l : List Char) :
    ∀ b, List.Chain' R l → List.Chain' R (rmAfterNLAux b l) := by
  induction l with
  | nil => intro b _; simp [rmAfterNLAux]
  | cons a rest ih =>
    intro b hch
    obtain ⟨hRh, hC⟩ := List.chain'_cons'.mp hch
    by_cases hnl : a = '\n'
    · rw [show rmAfterNLAux b (a :: rest) = '\n' :: rmAfterNLAux true rest by
        simp [rmAfterNLAux, hnl]]
      rw [List.chain'_cons']
      exact ⟨fun y _ => hR y, ih true hC⟩
    · by_cases hd : isST a && b
      · rw [show rmAfterNLAux b (a :: rest) = rmAfterNLAux true rest by
          simp only [rmAfterNLAux, if_neg hnl]
          rw [if_pos hd]]
        exact ih true hC
      · rw [show rmAfterNLAux b (a :: rest) = a :: rmAfterNLAux false rest by
          simp only [rmAfterNLAux, if_neg hnl]
          rw [if_neg]
          simpa using hd]
        rw [List.chain'_cons']
        refine ⟨?_, ih false hC⟩
        intro y hy
        rw [rm2_head_false] at hy
        exact hRh y hy

theorem rm2_id_aux (l : List Char) (hch : List.Chain' noNLST l) :
    rmAfterNLAux false l = l ∧
    ((∀ c, l.head? = some c → isST c = false) → rmAfterNLAux true l = l) := by
  induction l with
  | nil => exact ⟨rfl, fun _ => rfl⟩
  | cons a rest ih =>
    obtain ⟨hR, hC⟩ := List.chain'_cons'.mp hch
    obtain ⟨ih1, ih2⟩ := ih hC
    have main : ∀ b : Bool, (b = true → isST a = false) → rmAfterNLAux b (a :: rest) = a :: rest := by
      intro b hb
      by_cases hnl : a = '\n'
      · rw [show rmAfterNLAux b (a :: rest) = '\n' :: rmAfterNLAux true rest by
          simp [rmAfterNLAux, hnl]]
        have hhead : ∀ c, rest.head? = some c → isST c = false := by
          intro c hc
          have := hR c hc
          unfold noNLST at this
          simp [hnl] at this
          simpa using this
        rw [ih2 hhead, hnl]
      · have hno : (isST a && b) = false := by
          cases b with
          | false => simp
          | true => simp [hb rfl]
        rw [show rmAfterNLAux b (a :: rest) = a :: rmAfterNLAux false rest by
          simp only [rmAfterNLAux, if_neg hnl]
          rw [if_neg]
          simp [hno]]
        rw [ih1]
    constructor
    · exact main false (by intro h; exact absurd h (by simp))
    · intro hhead
      exact main true (fun _ => hhead a rfl)

/-! Stage 3 (`rmBeforeNLAux`): establishment, preservation, identity. -/

theorem chain'_allST (l : List Char) (h : ∀ c ∈ l, isST c = true) :
    List.Chain' noSTNL l := by
  induction l with
  | nil => simp
  | cons a rest ih =>
    rw [List.chain'_cons']
    refine ⟨?_, ih (fun c hc => h c (List.mem_cons_of_mem a hc))⟩
    intro y hy
    have hyr : y ∈ rest := List.mem_of_mem_head? hy
    have hyst := h y (List.mem_cons_of_mem a hyr)
    unfold noSTNL
    intro hcon
    rw [hcon.2] at hyst
    exact absurd hyst (by decide)

theorem rm3_head (l : List Char) :
    ∀ p : List Char, (rmBeforeNLAux p l).head? = (p.reverse ++ l).head? ∨
      (rmBeforeNLAux p l).head? = some '\n' := by
  induction l with
  | nil =>
    intro p
    left
    simp [rmBeforeNLAux]
  | cons c rest ih =>
    intro p
    by_cases hst : isST c
    · rw [show rmBeforeNLAux p (c :: rest) = rmBeforeNLAux (c :: p) rest by
        simp [rmBeforeNLAux, hst]]
      rcases ih (c :: p) with h | h
      · left
        rw [h]
        simp
      · right
        exact h
    · by_cases hnl : c = '\n'
      · right
        rw [show rmBeforeNLAux p (c :: rest) = '\n' :: rmBeforeNLAux [] rest by
          simp only [rmBeforeNLAux]
          rw [if_neg hst, if_pos hnl]]
        rfl
      · left
        rw [show rmBeforeNLAux p (c :: rest) = p.reverse ++ c :: rmBeforeNLAux [] rest by
          simp [rmBeforeNLAux, hst, hnl]]
        simp [List.head?_append]

theorem rm3_C (l : List Char) :
    ∀ p : List Char, (∀ c ∈ p, isST c = true) →
      List.Chain' noSTNL (rmBeforeNLAux p l) := by
  induction l with
  | nil =>
    intro p hp
    simp only [rmBeforeNLAux]
    exact chain'_allST _ (fun c hc => hp c (List.mem_reverse.mp hc))
  | cons c rest ih =>
    intro p hp
    by_cases hst : isST c
    · rw [show rmBeforeNLAux p (c :: rest) = rmBeforeNLAux (c :: p) rest by
        simp [rmBeforeNLAux, hst]]
      refine ih (c :: p) ?_
      intro d hd
      rcases List.mem_cons.mp hd with h | h
      · rw [h]; exact hst
      · exact hp d h
    · by_cases hnl : c = '\n'
      · rw [show rmBeforeNLAux p (c :: rest) = '\n' :: rmBeforeNLAux [] rest by
          simp only [rmBeforeNLAux]
          rw [if_neg hst, if_pos hnl]]
        rw [List.chain'_cons']
        refine ⟨?_, ih [] (by intro d hd; simp at hd)⟩
        intro y hy
        unfold noSTNL
        intro hcon
        exact absurd hcon.1 (by decide)
      · rw [show rmBeforeNLAux p (c :: rest) = p.reverse ++ c :: rmBeforeNLAux [] rest by
          simp [rmBeforeNLAux, hst, hnl]]
        rw [List.chain'_append]
        refine ⟨chain'_allST _ (fun d hd => hp d (List.mem_reverse.mp hd)), ?_, ?_⟩
        · rw [List.chain'_cons']
          refine ⟨?_, ih [] (by intro d hd; simp at hd)⟩
          intro y hy
          unfold noSTNL
          intro hcon
          exact absurd hcon.1 (by simpa using hst)
        · intro x hx y hy
          simp at hy
          unfold noSTNL
          intro hcon
          exact hnl (hy ▸ hcon.2)

theorem rm3_preserve (R : Char → Char → Prop) (hR : ∀ x, R x '\n') (l : List Char) :
    ∀ p : List Char, List.Chain' R (p.reverse ++ l) →
      List.Chain' R (rmBeforeNLAux p l) := by
  induction l with
  | nil =>
    intro p h
    simp only [rmBeforeNLAux]
    simpa using h
  | cons c rest ih =>
    intro p h
    by_cases hst : isST c
    · rw [show rmBeforeNLAux p (c :: rest) = rmBeforeNLAux (c :: p) rest by
        simp [rmBeforeNLAux, hst]]
      apply ih (c :: p)
      simpa [List.append_assoc] using h
    · obtain ⟨hpr, hcr, hconn⟩ := List.chain'_append.mp h
      by_cases hnl : c = '\n'
      · subst hnl
        rw [show rmBeforeNLAux p ('\n' :: rest) = '\n' :: rmBeforeNLAux [] rest by
          simp [rmBeforeNLAux, hst]]
        rw [List.chain'_cons']
        constructor
        · intro y hy
          rcases rm3_head rest [] with hh | hh
          · rw [hh] at hy
            simp only [List.reverse_nil, List.nil_append] at hy
            exact (List.chain'_cons'.mp hcr).1 y hy
          · rw [hh] at hy
            simp at hy
            subst hy
            exact hR '\n'
        · exact ih [] (by simpa using (List.chain'_cons'.mp hcr).2)
      · rw [show rmBeforeNLAux p (c :: rest) = p.reverse ++ c :: rmBeforeNLAux [] rest by
          simp only [rmBeforeNLAux]
          rw [if_neg hst, if_neg hnl]]
        rw [List.chain'_append]
        refine ⟨hpr, ?_, ?_⟩
        · rw [List.chain'_cons']
          constructor
          · intro y hy
            rcases rm3_head rest [] with hh | hh
            · rw [hh] at hy
              simp only [List.reverse_nil, List.nil_append] at hy
              exact (List.chain'_cons'.mp hcr).1 y hy
            · rw [hh] at hy
              simp at hy
              subst hy
              exact hR c
          · exact ih [] (by simpa using (List.chain'_cons'.mp hcr).2)
        · intro x hx y hy
          simp at hy
          subst hy
          exact hconn x hx c (by simp)

theorem rm3_noTab (l : List Char) :
    ∀ p : List Char, noTab l → (∀ c ∈ p, c ≠ '\t') → noTab (rmBeforeNLAux p l) := by
  induction l with
  | nil =>
    intro p _ hp c hc
    simp only [rmBeforeNLAux] at hc
    exact hp c (List.mem_reverse.mp hc)
  | cons a rest ih =>
    intro p hl hp c hc
    have hlr : noTab rest := fun d hd => hl d (List.mem_cons_of_mem a hd)
    have hla : a ≠ '\t' := hl a (List.mem_cons_self a rest)
    by_cases hst : isST a
    · rw [show rmBeforeNLAux p (a :: rest) = rmBeforeNLAux (a :: p) rest by
        simp [rmBeforeNLAux, hst]] at hc
      refine ih (a :: p) hlr ?_ c hc
      intro d hd
      rcases List.mem_cons.mp hd with h | h
      · rw [h]; exact hla
      · exact hp d h
    · by_cases hnl : a = '\n'
      · rw [show rmBeforeNLAux p (a :: rest) = '\n' :: rmBeforeNLAux [] rest by
          simp only [rmBeforeNLAux]
          rw [if_neg hst, if_pos hnl]] at hc
        rcases List.mem_cons.mp hc with h | h
        · rw [h]; decide
        · exact ih [] hlr (by intro d hd; simp at hd) c h
      · rw [show rmBeforeNLAux p (a :: rest) = p.reverse ++ a :: rmBeforeNLAux [] rest by
          simp [rmBeforeNLAux, hst, hnl]] at hc
        rcases List.mem_append.mp hc with h | h
        · exact hp c (List.mem_reverse.mp h)
        · rcases List.mem_cons.mp h with h2 | h2
          · rw [h2]; exact hla
          · exact ih [] hlr (by intro d hd; simp at hd) c h2

theorem rm3_id (l : List Char) :
    ∀ p : List Char, (∀ c ∈ p, isST c = true) →
      List.Chain' noSTNL (p.reverse ++ l) →
      rmBeforeNLAux p l = p.reverse ++ l := by
  induction l with
  | nil =>
    intro p _ _
    simp [rmBeforeNLAux]
  | cons c rest ih =>
    intro p hp hch
    by_cases hst : isST c
    · rw [show rmBeforeNLAux p (c :: rest) = rmBeforeNLAux (c :: p) rest by
        simp [rmBeforeNLAux, hst]]
      rw [ih (c :: p) ?side1 ?side2]
      · simp
      case side1 =>
        intro d hd
        rcases List.mem_cons.mp hd with h | h
        · rw [h]; exact hst
        · exact hp d h
      case side2 =>
        simpa [List.append_assoc] using hch
    · obtain ⟨hpr, hcr, hconn⟩ := List.chain'_append.mp hch
      by_cases hnl : c = '\n'
      · subst hnl
        have hpnil : p = [] := by
          cases p with
          | nil => rfl
          | cons q p' =>
            exfalso
            have hq := hconn q (by simp) '\n' (by simp)
            unfold noSTNL at hq
            exact hq ⟨hp q (List.mem_cons_self q p'), rfl⟩
        subst hpnil
        rw [show rmBeforeNLAux [] ('\n' :: rest) = '\n' :: rmBeforeNLAux [] rest by
          simp [rmBeforeNLAux, hst]]
        rw [ih [] (by intro d hd; simp at hd)
          (by simpa using (List.chain'_cons'.mp hcr).2)]
        simp
      · rw [show rmBeforeNLAux p (c :: rest) = p.reverse ++ c :: rmBeforeNLAux [] rest by
          simp only [rmBeforeNLAux]
          rw [if_neg hst, if_neg hnl]]
        rw [ih [] (by intro d hd; simp at hd)
          (by simpa using (List.chain'_cons'.mp hcr).2)]
        simp

/-! Stage 4 (`collapseNLAux`): establishment, preservation, identity. -/

theorem noTriple_short (l : List Char) (h : l.length ≤ 2) : noTriple l := by
  match l with
  | [] => trivial
  | [a] => trivial
  | [a, b] => trivial
  | a :: b :: c :: rest => simp at h

theorem noTriple_cons_inv (a : Char) (l : List Char) (h : noTriple (a :: l)) :
    noTriple l := by
  match l with
  | [] => trivial
  | [b] => trivial
  | b :: c :: rest => exact h.2

theorem noTriple_cons_of_ne (c : Char) (l : List Char) (hc : c ≠ '\n')
    (h : noTriple l) : noTriple (c :: l) := by
  match l with
  | [] => trivial
  | [a] => trivial
  | a :: b :: rest =>
    refine ⟨?_, h⟩
    intro hcon
    exact hc hcon.1

theorem noTriple_nl_cons (c : Char) (l : List Char) (hc : c ≠ '\n')
    (h : noTriple (c :: l)) : noTriple ('\n' :: c :: l) := by
  match l with
  | [] => trivial
  | a :: rest =>
    refine ⟨?_, h⟩
    intro hcon
    exact hc hcon.2.1

theorem noTriple_nl_nl_cons (c : Char) (l : List Char) (hc : c ≠ '\n')
    (h : noTriple ('\n' :: c :: l)) : noTriple ('\n' :: '\n' :: c :: l) := by
  refine ⟨?_, h⟩
  intro hcon
  exact hc hcon.2.2

theorem noTriple_append_right (t l : List Char) (h : noTriple (t ++ l)) : noTriple l := by
  induction t with
  | nil => exact h
  | cons a t' ih => exact ih (noTriple_cons_inv a _ h)

theorem noTriple_append_left (l : List Char) : ∀ t, noTriple (l ++ t) → noTriple l := by
  induction l with
  | nil => intro t _; trivial
  | cons a l' ih =>
    intro t h
    cases hl : l' with
    | nil => trivial
    | cons b l'' =>
      cases hl2 : l'' with
      | nil => trivial
      | cons c rest =>
        subst hl
        subst hl2
        obtain ⟨h1, h2⟩ := h
        exact ⟨h1, ih t h2⟩

theorem emitNL_length (run : Nat) : (emitNL run).length ≤ 2 := by
  unfold emitNL
  split
  · simp
  · rename_i h
    simp
    omega

theorem emitNL_of_le (run : Nat) (h : run ≤ 2) : emitNL run = List.replicate run '\n' := by
  unfold emitNL
  rw [if_neg]
  omega

theorem nl_est (l : List Char) : ∀ run, noTriple (collapseNLAux run l) := by
  induction l with
  | nil =>
    intro run
    simp only [collapseNLAux]
    exact noTriple_short _ (emitNL_length run)
  | cons c rest ih =>
    intro run
    by_cases hnl : c = '\n'
    · rw [show collapseNLAux run (c :: rest) = collapseNLAux (run + 1) rest by
        simp [collapseNLAux, hnl]]
      exact ih (run + 1)
    · rw [show collapseNLAux run (c :: rest) = emitNL run ++ c :: collapseNLAux 0 rest by
        simp [collapseNLAux, hnl]]
      have hbase : noTriple (c :: collapseNLAux 0 rest) :=
        noTriple_cons_of_ne c _ hnl (ih 0)
      unfold emitNL
      split
      · exact noTriple_nl_nl_cons c _ hnl (noTriple_nl_cons c _ hnl hbase)
      · rename_i hr
        have hr2 : run ≤ 2 := by omega
        match run, hr2 with
        | 0, _ => exact hbase
        | 1, _ =>
          show noTriple ('\n' :: c :: collapseNLAux 0 rest)
          exact noTriple_nl_cons c _ hnl hbase
        | 2, _ =>
          show noTriple ('\n' :: '\n' :: c :: collapseNLAux 0 rest)
          exact noTriple_nl_nl_cons c _ hnl (noTriple_nl_cons c _ hnl hbase)

theorem nl_head_pos (l : List Char) :
    ∀ run, 1 ≤ run → (collapseNLAux run l).head? = some '\n' := by
  induction l with
  | nil =>
    intro run hrun
    simp only [collapseNLAux]
    unfold emitNL
    split
    · rfl
    · rename_i h
      match run, hrun with
      | 1, _ => rfl
      | 2, _ => rfl
      | n + 3, _ => omega
  | cons c rest ih =>
    intro run hrun
    by_cases hnl : c = '\n'
    · rw [show collapseNLAux run (c :: rest) = collapseNLAux (run + 1) rest by
        simp [collapseNLAux, hnl]]
      exact ih (run + 1) (by omega)
    · rw [show collapseNLAux run (c :: rest) = emitNL run ++ c :: collapseNLAux 0 rest by
        simp [collapseNLAux, hnl]]
      rw [List.head?_append]
      have : (emitNL run).head? = some '\n' := by
        unfold emitNL
        split
        · rfl
        · rename_i h
          match run, hrun with
          | 1, _ => rfl
          | 2, _ => rfl
          | n + 3, _ => omega
      rw [this]
      rfl

theorem nl_head_zero (l : List Char) : (collapseNLAux 0 l).head? = l.head? := by
  cases l with
  | nil => rfl
  | cons c rest =>
    by_cases hnl : c = '\n'
    · rw [show collapseNLAux 0 (c :: rest) = collapseNLAux 1 rest by
        simp [collapseNLAux, hnl]]
      rw [nl_head_pos rest 1 (by omega), hnl]
      rfl
    · rw [show collapseNLAux 0 (c :: rest) = emitNL 0 ++ c :: collapseNLAux 0 rest by
        simp [collapseNLAux, hnl]]
      rfl

theorem chain'_RNN (R : Char → Char → Prop) (run : Nat) (h2 : 2 ≤ run)
    (h : List.Chain' R (List.replicate run '\n')) : R '\n' '\n' := by
  match run, h2 with
  | n + 2, _ =>
    rw [show List.replicate (n + 2) '\n' = '\n' :: '\n' :: List.replicate n '\n' by
      simp [List.replicate_succ]] at h
    exact (List.chain'_cons'.mp h).1 '\n' (by rfl)

theorem nl_preserve (R : Char → Char → Prop) (l : List Char) :
    ∀ run, List.Chain' R (List.replicate run '\n' ++ l) →
      List.Chain' R (collapseNLAux run l) := by
  induction l with
  | nil =>
    intro run h
    simp only [collapseNLAux]
    rw [List.append_nil] at h
    unfold emitNL
    split
    · rename_i h3
      have hRNN : R '\n' '\n' := chain'_RNN R run (by omega) h
      rw [List.chain'_cons']
      exact ⟨fun y hy => by simp at hy; subst hy; exact hRNN, by simp⟩
    · exact h
  | cons c rest ih =>
    intro run h
    by_cases hnl : c = '\n'
    · subst hnl
      rw [show collapseNLAux run ('\n' :: rest) = collapseNLAux (run + 1) rest by
        simp [collapseNLAux]]
      apply ih (run + 1)
      rw [show List.replicate (run + 1) '\n' ++ rest =
          List.replicate run '\n' ++ '\n' :: rest by
        rw [List.replicate_succ']
        simp]
      exact h
    · rw [show collapseNLAux run (c :: rest) = emitNL run ++ c :: collapseNLAux 0 rest by
        simp [collapseNLAux, hnl]]
      obtain ⟨hrep, hcr, hconn⟩ := List.chain'_append.mp h
      rw [List.chain'_append]
      refine ⟨?_, ?_, ?_⟩
      · unfold emitNL
        split
        · rename_i h3
          have hRNN : R '\n' '\n' := chain'_RNN R run (by omega) hrep
          rw [List.chain'_cons']
          exact ⟨fun y hy => by simp at hy; subst hy; exact hRNN, by simp⟩
        · exact hrep
      · rw [List.chain'_cons']
        constructor
        · intro y hy
          rw [nl_head_zero] at hy
          exact (List.chain'_cons'.mp hcr).1 y hy
        · exact ih 0 (by simpa using (List.chain'_cons'.mp hcr).2)
      · intro x hx y hy
        simp at hy
        subst hy
        have hx2 : x ∈ (List.replicate run '\n').getLast? := by
          unfold emitNL at hx
          split at hx
          · rename_i h3
            simp at hx
            subst hx
            match run, h3 with
            | n + 3, _ =>
              rw [show List.replicate (n + 3) '\n' = List.replicate (n + 2) '\n' ++ ['\n'] by
                rw [← List.replicate_succ']]
              simp
          · exact hx
        exact hconn x hx2 c (by simp)

theorem nl_id (l : List Char) :
    ∀ run, run ≤ 2 → noTriple (List.replicate run '\n' ++ l) →
      collapseNLAux run l = List.replicate run '\n' ++ l := by
  induction l with
  | nil =>
    intro run hrun _
    simp only [collapseNLAux]
    rw [emitNL_of_le run hrun]
    simp
  | cons c rest ih =>
    intro run hrun h
    by_cases hnl : c = '\n'
    · subst hnl
      rw [show collapseNLAux run ('\n' :: rest) = collapseNLAux (run + 1) rest by
        simp [collapseNLAux]]
      have hlist : List.replicate run '\n' ++ '\n' :: rest =
          List.replicate (run + 1) '\n' ++ rest := by
        rw [List.replicate_succ']
        simp
      have hrun1 : run + 1 ≤ 2 := by
        rcases Nat.lt_or_ge run 2 with hlt | hge
        · omega
        · exfalso
          have hrun2 : run = 2 := by omega
          subst hrun2
          rw [show List.replicate 2 '\n' ++ '\n' :: rest =
              '\n' :: '\n' :: '\n' :: rest by simp [List.replicate_succ]] at h
          exact h.1 ⟨rfl, rfl, rfl⟩
      rw [hlist] at h
      rw [ih (run + 1) hrun1 h]
      rw [hlist]
    · rw [show collapseNLAux run (c :: rest) = emitNL run ++ c :: collapseNLAux 0 rest by
        simp [collapseNLAux, hnl]]
      have hrest : noTriple rest :=
        noTriple_cons_inv c rest (noTriple_append_right (List.replicate run '\n') _ h)
      rw [ih 0 (by omega) (by simpa using hrest)]
      rw [emitNL_of_le run hrun]
      simp

/-! `str.strip()` and remaining closure lemmas. -/

theorem mem_emitNL (run : Nat) (c : Char) (h : c ∈ emitNL run) : c = '\n' := by
  unfold emitNL at h
  split at h
  · simp at h
    exact h
  · exact List.eq_of_mem_replicate h

theorem nl_noTab (l : List Char) : ∀ run, noTab l → noTab (collapseNLAux run l) := by
  induction l with
  | nil =>
    intro run _ c hc
    simp only [collapseNLAux] at hc
    rw [mem_emitNL run c hc]
    decide
  | cons a rest ih =>
    intro run h c hc
    have hr : noTab rest := fun d hd => h d (List.mem_cons_of_mem a hd)
    by_cases hnl : a = '\n'
    · rw [show collapseNLAux run (a :: rest) = collapseNLAux (run + 1) rest by
        simp [collapseNLAux, hnl]] at hc
      exact ih (run + 1) hr c hc
    · rw [show collapseNLAux run (a :: rest) = emitNL run ++ a :: collapseNLAux 0 rest by
        simp [collapseNLAux, hnl]] at hc
      rcases List.mem_append.mp hc with hh | hh
      · rw [mem_emitNL run c hh]; decide
      · rcases List.mem_cons.mp hh with h2 | h2
        · rw [h2]; exact h a (List.mem_cons_self a rest)
        · exact ih 0 hr c h2

theorem dropWhile_head_not (p : Char → Bool) (l : List Char) :
    ∀ c, (l.dropWhile p).head? = some c → p c = false := by
  induction l with
  | nil => intro c hc; simp at hc
  | cons a rest ih =>
    intro c hc
    by_cases ha : p a
    · rw [List.dropWhile_cons_of_pos ha] at hc
      exact ih c hc
    · rw [List.dropWhile_cons_of_neg ha] at hc
      simp at hc
      subst hc
      simpa using ha

theorem dropWhile_id_of_head (p : Char → Bool) (l : List Char)
    (h : ∀ c, l.head? = some c → p c = false) : l.dropWhile p = l := by
  cases l with
  | nil => rfl
  | cons a rest =>
    rw [List.dropWhile_cons_of_neg]
    simp [h a rfl]

theorem rstrip_prefix (l : List Char) : ∃ s, rstripList l ++ s = l := by
  induction l with
  | nil => exact ⟨[], rfl⟩
  | cons a rest ih =>
    obtain ⟨s, hs⟩ := ih
    simp only [rstripList]
    cases hr : rstripList rest with
    | nil =>
      by_cases ha : isPyWS a
      · refine ⟨a :: rest, ?_⟩
        simp [ha]
      · refine ⟨rest, ?_⟩
        simp [ha]
    | cons d r =>
      rw [hr] at hs
      exact ⟨s, by simp [← hs]⟩

theorem rstrip_head (l : List Char) (c : Char) (h : (rstripList l).head? = some c) :
    l.head? = some c := by
  obtain ⟨s, hs⟩ := rstrip_prefix l
  rw [← hs, List.head?_append, h]
  rfl

theorem rstrip_last (l : List Char) :
    ∀ c, (rstripList l).getLast? = some c → isPyWS c = false := by
  induction l with
  | nil => intro c hc; simp [rstripList] at hc
  | cons a rest ih =>
    intro c hc
    simp only [rstripList] at hc
    cases hr : rstripList rest with
    | nil =>
      rw [hr] at hc
      by_cases ha : isPyWS a
      · simp [ha] at hc
      · simp [ha] at hc
        subst hc
        simpa using ha
    | cons d r =>
      rw [hr] at hc
      rw [List.getLast?_cons_cons] at hc
      rw [← hr] at hc
      exact ih c hc

theorem rstrip_id (l : List Char)
    (h : ∀ c, l.getLast? = some c → isPyWS c = false) : rstripList l = l := by
  induction l with
  | nil => rfl
  | cons a rest ih =>
    cases rest with
    | nil =>
      have := h a rfl
      simp only [rstripList]
      simp [this]
    | cons b r' =>
      have hrr : rstripList (b :: r') = b :: r' := by
        apply ih
        intro c hc
        apply h
        rw [List.getLast?_cons_cons]
        exact hc
      have hstep : rstripList (a :: b :: r') =
          (match rstripList (b :: r') with
            | [] => if isPyWS a = true then [] else [a]
            | r => a :: r) := rfl
      rw [hstep, hrr]

/-! Assembly: the whitespace pipeline is idempotent. -/

theorem wsPipeline_idem (l : List Char) : wsPipeline (wsPipeline l) = wsPipeline l := by
  -- invariants established along the first pass
  have htab1 : noTab (collapseSTAux false l) := st_noTab l false
  have hss1 : List.Chain' noSS (collapseSTAux false l) := st_chain l false
  set t1 := collapseSTAux false l with ht1
  have htab2 : noTab (rmAfterNLAux false t1) := rm2_noTab t1 htab1 false
  have hss2 : List.Chain' noSS (rmAfterNLAux false t1) :=
    rm2_preserve noSS (fun x => by
      unfold noSS
      intro hcon
      exact absurd hcon.1 (by decide)) t1 false hss1
  have hb2 : List.Chain' noNLST (rmAfterNLAux false t1) := rm2_B t1 false
  set t2 := rmAfterNLAux false t1 with ht2
  have htab3 : noTab (rmBeforeNLAux [] t2) :=
    rm3_noTab t2 [] htab2 (by intro c hc; simp at hc)
  have hss3 : List.Chain' noSS (rmBeforeNLAux [] t2) :=
    rm3_preserve noSS (fun x => by
      unfold noSS
      intro hcon
      exact absurd hcon.2 (by decide)) t2 [] (by simpa using hss2)
  have hb3 : List.Chain' noNLST (rmBeforeNLAux [] t2) :=
    rm3_preserve noNLST (fun x => by
      unfold noNLST
      intro hcon
      exact absurd hcon.2 (by decide)) t2 [] (by simpa using hb2)
  have hC3 : List.Chain' noSTNL (rmBeforeNLAux [] t2) :=
    rm3_C t2 [] (by intro c hc; simp at hc)
  set t3 := rmBeforeNLAux [] t2 with ht3
  have htab4 : noTab (collapseNLAux 0 t3) := nl_noTab t3 0 htab3
  have hss4 : List.Chain' noSS (collapseNLAux 0 t3) :=
    nl_preserve noSS t3 0 (by simpa using hss3)
  have hb4 : List.Chain' noNLST (collapseNLAux 0 t3) :=
    nl_preserve noNLST t3 0 (by simpa using hb3)
  have hC4 : List.Chain' noSTNL (collapseNLAux 0 t3) :=
    nl_preserve noSTNL t3 0 (by simpa using hC3)
  have hD4 : noTriple (collapseNLAux 0 t3) := nl_est t3 0
  set t4 := collapseNLAux 0 t3 with ht4
  -- strip
  obtain ⟨s, hs⟩ := List.dropWhile_suffix (l := t4) isPyWS
  set u := t4.dropWhile isPyWS with hu
  have htabu : noTab u := by
    intro c hc
    refine htab4 c ?_
    rw [← hs]
    exact List.mem_append_right s hc
  have hssu : List.Chain' noSS u := hss4.suffix (List.dropWhile_suffix isPyWS)
  have hbu : List.Chain' noNLST u := hb4.suffix (List.dropWhile_suffix isPyWS)
  have hCu : List.Chain' noSTNL u := hC4.suffix (List.dropWhile_suffix isPyWS)
  have hDu : noTriple u := by
    refine noTriple_append_right s u ?_
    rw [hs]
    exact hD4
  have hheadu : ∀ c, u.head? = some c → isPyWS c = false :=
    dropWhile_head_not isPyWS t4
  obtain ⟨s2, hs2⟩ := rstrip_prefix u
  set t5 := rstripList u with ht5
  have htab5 : noTab t5 := by
    intro c hc
    refine htabu c ?_
    rw [← hs2]
    exact List.mem_append_left s2 hc
  have hss5 : List.Chain' noSS t5 := by
    have := hssu
    rw [← hs2] at this
    exact (List.chain'_append.mp this).1
  have hb5 : List.Chain' noNLST t5 := by
    have := hbu
    rw [← hs2] at this
    exact (List.chain'_append.mp this).1
  have hC5 : List.Chain' noSTNL t5 := by
    have := hCu
    rw [← hs2] at this
    exact (List.chain'_append.mp this).1
  have hD5 : noTriple t5 := by
    refine noTriple_append_left t5 s2 ?_
    rw [hs2]
    exact hDu
  have hhead5 : ∀ c, t5.head? = some c → isPyWS c = false := by
    intro c hc
    exact hheadu c (rstrip_head u c hc)
  have hlast5 : ∀ c, t5.getLast? = some c → isPyWS c = false := rstrip_last u
  -- the whole pipeline fixes t5
  have id1 : collapseSTAux false t5 = t5 := (st_id_aux t5 htab5 hss5).1
  have id2 : rmAfterNLAux false t5 = t5 := (rm2_id_aux t5 hb5).1
  have id3 : rmBeforeNLAux [] t5 = t5 := by
    have := rm3_id t5 [] (by intro c hc; simp at hc) (by simpa using hC5)
    simpa using this
  have id4 : collapseNLAux 0 t5 = t5 := by
    have := nl_id t5 0 (by omega) (by simpa using hD5)
    simpa using this
  have id5 : t5.dropWhile isPyWS = t5 := dropWhile_id_of_head isPyWS t5 hhead5
  have id6 : rstripList t5 = t5 := rstrip_id t5 hlast5
  have hw : wsPipeline l = t5 := rfl
  rw [hw]
  show rstripList ((collapseNLAux 0 (rmBeforeNLAux [] (rmAfterNLAux false
    (collapseSTAux false t5)))).dropWhile isPyWS) = t5
  rw [id1, id2, id3, id4, id5, id6]

/-- Claim C7: `normalize_text` is idempotent, and empty or `None` input
yields the empty string.  Unicode NFC is an external capability: the
hypothesis states that NFC fixes the pipeline's outputs (true of real NFC,
which is idempotent, and of the whitespace passes, which delete only
ASCII whitespace and so cannot create new composable sequences). -/
theorem c7_normalize_idempotent (nfc : String → String)
    (hnfc : ∀ s : String, nfc (String.mk (wsPipeline (nfc s).data)) =
      String.mk (wsPipeline (nfc s).data)) :
    (∀ t : Option String,
      normalize_text nfc (some (normalize_text nfc t)) = normalize_text nfc t) ∧
    normalize_text nfc none = "" ∧ normalize_text nfc (some "") = "" := by
  refine ⟨?_, rfl, rfl⟩
  intro t
  match t with
  | none => rfl
  | some s =>
    by_cases hs : s = ""
    · rw [hs]
      rfl
    · have houter : normalize_text nfc (some s) = String.mk (wsPipeline (nfc s).data) := by
        simp [normalize_text, hs]
      rw [houter]
      by_cases hz : String.mk (wsPipeline (nfc s).data) = ""
      · rw [hz]
        rfl
      · have : normalize_text nfc (some (String.mk (wsPipeline (nfc s).data))) =
            String.mk (wsPipeline (nfc (String.mk (wsPipeline (nfc s).data))).data) := by
          simp [normalize_text, hz]
        rw [this, hnfc s]
        show String.mk (wsPipeline (wsPipeline (nfc s).data)) = _
        rw [wsPipeline_idem]

/-- Witness instantiating `c7_normalize_idempotent` with the identity as
the NFC capability and a concrete messy input. -/
theorem c7_witness :
    normalize_text id (some (normalize_text id (some " a \t b \n\n\n\nc "))) =
      normalize_text id (some " a \t b \n\n\n\nc ") ∧
    normalize_text id none = "" ∧ normalize_text id (some "") = "" := by
  have h := c7_normalize_idempotent id (fun s => rfl)
  exact ⟨h.1 (some " a \t b \n\n\n\nc "), h.2.1, h.2.2⟩
